import Mathlib

/-!
Verification of the yacr CSV reader/writer (gwenn/yacr).

Bytes are modelled as natural numbers; byte strings as `List Nat`.
The tokenizer (`Reader.ScanField` in reader.go), the writer
(`Writer.Write` / `EndOfRecord` / `Flush`), the separator guesser
(`guess` in reader.go) and the buffered line reader (`LineReader.ReadLine`
in buf.go) are embedded as executable functions, mirroring the Go control
flow loop by loop.
-/

set_option maxRecDepth 8000

namespace Yacr

abbrev Byte := Nat

/-- The double-quote byte. -/
def QUOTE : Byte := 34

/-- The line-feed byte. -/
def LF : Byte := 10

/-- The carriage-return byte. -/
def CR : Byte := 13

/-- Go slice expression d[a:b]. -/
def sliceL (d : List Byte) (a b : Nat) : List Byte := (d.take b).drop a

/-- Reader state: the mutable fields of the Go `Reader` struct (reader.go).
`Trim`, `Comment`, `Lazy` are the exported option fields. -/
structure Reader where
  sep : Byte
  quoted : Bool
  guess : Bool
  eor : Bool
  lineno : Nat
  empty : Bool
  Trim : Bool
  Comment : Byte
  Lazy : Bool
deriving Repr, DecidableEq

/-- `NewReader` initial state (reader.go line 44): eor=true, lineno=1,
empty=false, Trim=false, Comment=0, Lazy=false. -/
def NewReader (sep : Byte) (quoted guessFlag : Bool) : Reader :=
  { sep := sep, quoted := quoted, guess := guessFlag, eor := true, lineno := 1,
    empty := false, Trim := false, Comment := 0, Lazy := false }

/-- Errors raised by `ScanField`. The Go code formats them as strings
("unescaped ... at line d", "non-terminated quoted field at line d");
we keep the constructor plus the reported line number. -/
inductive ScanErr where
  | unescapedQuote (line : Nat)
  | nonTerminatedQuote (line : Nat)
deriving Repr, DecidableEq

/-- Result of one `ScanField` call: request more data (`more`, the
(0, nil, nil) return), produce a token, skip bytes producing no token
(nil token with positive advance, used for comment lines), or fail. -/
inductive ScanOut where
  | more
  | tok (advance : Nat) (token : List Byte)
  | skip (advance : Nat)
  | fail (e : ScanErr)
deriving Repr, DecidableEq

/-- ASCII whitespace recognised by bytes.TrimSpace on single-byte runes. -/
def isSpaceB (b : Byte) : Bool :=
  b = 32 || b = 9 || b = 10 || b = 11 || b = 12 || b = 13

/-- The `trim` helper (reader.go line 324): bytes.TrimSpace, with nil
normalised to the empty slice. -/
def trim (s : List Byte) : List Byte :=
  ((s.dropWhile isSpaceB).reverse.dropWhile isSpaceB).reverse

/-- The compaction loop inside `unescapeQuotes` (reader.go line 293):
copy byte by byte; after copying a quote, skip the following source byte
when in strict mode or when that byte is itself a quote. -/
def unescCompact (strict : Bool) : List Byte → List Byte
  | [] => []
  | [b] => [b]
  | b :: c :: rest =>
    if b = QUOTE ∧ (strict ∨ c = QUOTE) then b :: unescCompact strict rest
    else b :: unescCompact strict (c :: rest)

/-- `unescapeQuotes` (reader.go line 289): in place, so the bytes past the
compacted region keep their old values, and the result is the first
`len - count` bytes of the mutated array. -/
def unescapeQuotes (b : List Byte) (count : Nat) (strict : Bool) : List Byte :=
  if count = 0 then b
  else ((unescCompact strict b) ++ b.drop (unescCompact strict b).length).take
         (b.length - count)

/-- The candidate separators (reader.go line 303): comma, semicolon, tab,
pipe, colon. -/
def sepCands : List Byte := [44, 59, 9, 124, 58]

/-- The `guess` function (reader.go line 302). The Go code counts candidate
occurrences in a map and then takes, with a strict comparison, the first
maximal entry in map iteration order, which Go leaves unspecified; this
model iterates the candidates in the order of `sepCands`. Candidates absent
from the data have count 0 and can never win the strict comparison, exactly
as keys absent from the Go map. Returns 0 when no candidate occurs. -/
def guess (data : List Byte) : Byte :=
  (sepCands.foldl
    (fun p b => if data.count b > p.1 then (data.count b, b) else p) (0, 0)).2

/-- Outcome of the quoted-field loop of `ScanField` (reader.go lines
199-229): close with a token, fail, or run off the end of the data
(carrying the state the Go locals hold at that point). -/
inductive QOut where
  | close (advance : Nat) (token : List Byte) (eor : Bool) (lineno : Nat)
  | err (e : ScanErr) (lineno : Nat)
  | ranOut (lineno : Nat) (eq : Nat) (strict : Bool) (c : Byte)
deriving Repr, DecidableEq

/-- The quoted-field scan loop (reader.go lines 199-229), one constructor
case per Go iteration. `i` is the current index into `data`, `rest` is
`data.drop i`; `pc`/`ppc` are the previous and before-previous bytes as the
Go code maintains them (0 initially; `pc` reset to 0 after an escaped
quote, whose `continue` also skips the `ppc`/`pc` shift). -/
def qloop (sep : Byte) (lz : Bool) (data : List Byte) :
    List Byte → Nat → Nat → Nat → Bool → Byte → Byte → Byte → QOut
  | [], _, lineno, eq, strict, _, _, c => .ranOut lineno eq strict c
  | b :: rest, i, lineno, eq, strict, pc, ppc, _ =>
    let lineno' := if b = LF then lineno + 1 else lineno
    if b = QUOTE ∧ pc = QUOTE then
      qloop sep lz data rest (i + 1) lineno' (eq + 1) strict 0 ppc b
    else if pc = QUOTE ∧ b = sep then
      .close (i + 1) (unescapeQuotes (sliceL data 1 (i - 1)) eq strict) false lineno'
    else if pc = QUOTE ∧ b = LF then
      .close (i + 1) (unescapeQuotes (sliceL data 1 (i - 1)) eq strict) true lineno'
    else if b = LF ∧ pc = CR ∧ ppc = QUOTE then
      .close (i + 1) (unescapeQuotes (sliceL data 1 (i - 2)) eq strict) true lineno'
    else if pc = QUOTE ∧ b ≠ CR then
      if lz then qloop sep lz data rest (i + 1) lineno' eq false b pc b
      else .err (.unescapedQuote lineno') lineno'
    else qloop sep lz data rest (i + 1) lineno' eq strict b pc b

/-- Outcome of the unquoted-field loop (reader.go lines 250-274). For a
newline close, `emptyIdx` records the Go `i == 0` (plain) or `i == 1`
(CRLF) test used to update `s.empty`. -/
inductive UOut where
  | sepClose (advance : Nat) (raw : List Byte)
  | nlClose (advance : Nat) (raw : List Byte) (emptyIdx : Bool)
  | ranOut
deriving Repr, DecidableEq

/-- The unquoted-field scan loop (reader.go lines 250-274). `prev` is
`data[i-1]` (meaningful only when `0 < i`). -/
def uloop (sep : Byte) (data : List Byte) : List Byte → Nat → Byte → UOut
  | [], _, _ => .ranOut
  | b :: rest, i, prev =>
    if b = sep then .sepClose (i + 1) (sliceL data 0 i)
    else if b = LF then
      if 0 < i ∧ prev = CR then
        .nlClose (i + 1) (sliceL data 0 (i - 1)) (decide (i = 1))
      else .nlClose (i + 1) (sliceL data 0 i) (decide (i = 0))
    else uloop sep data rest (i + 1) b

/-- The comment-line loop (reader.go lines 240-244): advance past the first
newline, or report none found. -/
def cloop : List Byte → Nat → Option Nat
  | [], _ => none
  | b :: rest, i => if b = LF then some (i + 1) else cloop rest (i + 1)

/-- The branch body of `Reader.ScanField` (reader.go lines 192-287) after
the separator guess has been applied: quoted field, line comment, or
unquoted field. -/
def scanFieldCore (s : Reader) (data : List Byte) (atEOF : Bool) :
    ScanOut × Reader :=
  if s.quoted ∧ data.head? = some QUOTE then
      let s := { s with empty := false }
      match qloop s.sep s.Lazy data data.tail 1 s.lineno 0 true 0 0 0 with
      | .close adv tok e ln => (.tok adv tok, { s with eor := e, lineno := ln })
      | .err e ln => (.fail e, { s with lineno := ln })
      | .ranOut ln eq strict c =>
        if atEOF then
          if c = QUOTE then
            (.tok data.length
               (unescapeQuotes (sliceL data 1 (data.length - 1)) eq strict),
             { s with eor := true, lineno := ln })
          else (.fail (.nonTerminatedQuote s.lineno), { s with lineno := ln })
        else (.more, { s with lineno := ln })
    else if s.eor ∧ s.Comment ≠ 0 ∧ data.head? = some s.Comment then
      let s := { s with empty := true }
      match cloop data 0 with
      | some adv => (.skip adv, s)
      | none => if atEOF then (.skip data.length, s) else (.more, s)
    else
      match uloop s.sep data data 0 0 with
      | .sepClose adv raw =>
        (.tok adv (if s.Trim then trim raw else raw), { s with eor := false })
      | .nlClose adv raw eIdx =>
        (.tok adv (if s.Trim then trim raw else raw),
         { s with lineno := s.lineno + 1, empty := s.eor ∧ eIdx, eor := true })
      | .ranOut =>
        if atEOF then
          (.tok data.length (if s.Trim then trim data else data),
           { s with empty := false, eor := true })
        else (.more, s)

/-- `Reader.ScanField` (reader.go lines 182-287), the bufio.SplitFunc at
the heart of the tokenizer: terminal return on exhausted input at end of
record, one-shot separator guess, then the branch body. -/
def scanField (s : Reader) (data : List Byte) (atEOF : Bool) :
    ScanOut × Reader :=
  if atEOF ∧ data = [] ∧ s.eor then (.more, s)
  else
    scanFieldCore
      (if s.guess then
        { s with guess := false,
                 sep := if guess data > 0 then guess data else s.sep }
       else s) data atEOF

/-- The scanning driver: repeatedly apply `ScanField` to the remaining
input with `atEOF = true` (the whole input is in hand, as when it fits the
scanner's buffer), collecting each produced token together with the
end-of-record flag observed after it, skipping nil-token advances as
bufio.Scanner does, and stopping on error or on the terminal (0, nil, nil)
return. `fuel` bounds the number of calls. -/
def tokenize (fuel : Nat) (s : Reader) (data : List Byte) :
    List (List Byte × Bool) × Reader × Option ScanErr :=
  match fuel with
  | 0 => ([], s, none)
  | fuel + 1 =>
    match scanField s data true with
    | (.more, s1) => ([], s1, none)
    | (.fail e, s1) => ([], s1, some e)
    | (.skip adv, s1) => tokenize fuel s1 (data.drop adv)
    | (.tok adv t, s1) =>
      let r := tokenize fuel s1 (data.drop adv)
      ((t, s1.eor) :: r.1, r.2.1, r.2.2)

/-- Run the driver with enough fuel for any input: each call either
consumes a byte or is the final zero-advance token or terminal return. -/
def tokenizeAll (s : Reader) (data : List Byte) :
    List (List Byte × Bool) × Reader × Option ScanErr :=
  tokenize (data.length + 2) s data

/-- The buffered sink behind the Writer, modelling the external
bufio.Writer over an io.Writer per their documented contracts: the first
write error is latched in `err` and every later operation is a no-op on
the sink returning that latched error. Buffering is elided (every byte
reaches the sink at once, so `flush` has nothing to push). The sink is
driven by `sched`: accepting one byte consumes one entry, `some e` making
that write fail with error code `e`; an exhausted schedule accepts
everything. -/
structure BW where
  out : List Byte
  sched : List (Option Nat)
  err : Option Nat
deriving Repr, DecidableEq

/-- bufio WriteByte: no-op returning the latched error if any, otherwise
push the byte to the sink, latching a scheduled failure. -/
def BW.writeByte (b : BW) (c : Byte) : Option Nat × BW :=
  match b.err with
  | some e => (some e, b)
  | none =>
    match b.sched with
    | [] => (none, { b with out := b.out ++ [c] })
    | none :: rest => (none, { b with out := b.out ++ [c], sched := rest })
    | some e :: rest => (some e, { b with err := some e, sched := rest })

/-- bufio Write of a chunk: bytes go out one by one; the returned error is
the latched error after the attempt (nil on full success), matching
bufio.Write which reports the writer's sticky error. -/
def BW.writeChunk (b : BW) (cs : List Byte) : Option Nat × BW :=
  let b1 := cs.foldl (fun acc c => (BW.writeByte acc c).2) b
  (b1.err, b1)

/-- bufio Flush: with no buffered bytes pending it just reports the
latched error (nil if none). -/
def BW.flush (b : BW) : Option Nat × BW := (b.err, b)

/-- Writer state, the Go `Writer` struct of the current writer source
(part_005): buffered sink, separator, quoted mode, start-of-record flag,
sticky error, CRLF option. -/
structure Writer where
  b : BW
  sep : Byte
  quoted : Bool
  sor : Bool
  err : Option Nat
  UseCRLF : Bool
deriving Repr, DecidableEq

/-- `NewWriter` (part_005 line 34), parameterised by the sink failure
schedule. -/
def NewWriter (sep : Byte) (quoted : Bool) (sched : List (Option Nat) := []) :
    Writer :=
  { b := { out := [], sched := sched, err := none }, sep := sep,
    quoted := quoted, sor := true, err := none, UseCRLF := false }

/-- `Writer.setErr` (part_005 line 113): record the first error. -/
def Writer.setErr (w : Writer) (e : Option Nat) : Writer :=
  if w.err = none then { w with err := e } else w

/-- `w.setErr(w.b.WriteByte(c))`. -/
def Writer.wByte (w : Writer) (c : Byte) : Writer :=
  let r := w.b.writeByte c
  Writer.setErr { w with b := r.2 } r.1

/-- `if _, err := w.b.Write(cs); err != nil { w.setErr(err) }` (setErr of a
nil error is a no-op, so the conditional is immaterial). -/
def Writer.wChunk (w : Writer) (cs : List Byte) : Writer :=
  let r := w.b.writeChunk cs
  Writer.setErr { w with b := r.2 } r.1

/-- The quote-triggering byte test of `Writer.Write` (part_005 line 62):
quote, carriage return, newline, or the separator. -/
def isSpecial (sep c : Byte) : Bool := c = QUOTE || c = CR || c = LF || c = sep

/-- The quoting loop of `Writer.Write` (part_005 lines 59-77): on each
special byte, open the quote if this is the first one, flush the pending
verbatim span, emit the byte (doubled if it is a quote), and remember
`last`. Returns the final `last` with the writer. -/
def wqloop (field : List Byte) : List Byte → Nat → Nat → Writer → Nat × Writer
  | [], _, last, w => (last, w)
  | c :: rest, i, last, w =>
    if isSpecial w.sep c then
      let w := if last = 0 then w.wByte QUOTE else w
      let w := w.wChunk (sliceL field last i)
      let w := w.wByte c
      let w := if c = QUOTE then w.wByte c else w
      wqloop field rest (i + 1) (i + 1) w
    else wqloop field rest (i + 1) last w

/-- `Writer.Write` (part_005 lines 50-91). Returns the Go boolean
(`w.err == nil` afterwards) with the new state. -/
def Writer.write (w : Writer) (field : List Byte) : Bool × Writer :=
  if w.err ≠ none then (false, w)
  else
    let w := if ¬ w.sor then w.wByte w.sep else w
    let w :=
      if w.quoted then
        let r := wqloop field field 0 0 w
        let w := r.2.wChunk (field.drop r.1)
        if r.1 ≠ 0 then w.wByte QUOTE else w
      else w.wChunk field
    let w := { w with sor := false }
    (w.err = none, w)

/-- `Writer.EndOfRecord` (part_005 lines 94-100). -/
def Writer.endOfRecord (w : Writer) : Writer :=
  let w := if w.UseCRLF then w.wByte CR else w
  let w := w.wByte LF
  { w with sor := true }

/-- `Writer.Flush` (part_005 lines 103-105). -/
def Writer.flushW (w : Writer) : Writer :=
  let r := w.b.flush
  Writer.setErr { w with b := r.2 } r.1

/-- `Writer.Err` (part_005 lines 108-110): the first error encountered. -/
def Writer.Err (w : Writer) : Option Nat := w.err

/-- Write the fields of one record in order. -/
def writeFields (w : Writer) (fs : List (List Byte)) : Writer :=
  fs.foldl (fun w f => (Writer.write w f).2) w

/-- Write a sequence of records calling `EndOfRecord` after every record,
the last included. -/
def writeRecordsTerm (w : Writer) (rs : List (List (List Byte))) : Writer :=
  rs.foldl (fun w r => Writer.endOfRecord (writeFields w r)) w

/-- Write a sequence of records calling `EndOfRecord` only between two
consecutive records (none after the last). -/
def writeRecordsBetween (w : Writer) (rs : List (List (List Byte))) : Writer :=
  match rs with
  | [] => w
  | r :: rest =>
    rest.foldl (fun w r => writeFields (Writer.endOfRecord w) r)
      (writeFields w r)

/-- Double every quote of a byte string (the wire content of a quoted
field). -/
def dbl : List Byte → List Byte
  | [] => []
  | c :: rest => if c = QUOTE then c :: c :: dbl rest else c :: dbl rest

/-- The bytes `Writer.write` emits for one field in quoted mode (not
counting the separator): quote-wrapped with doubled quotes when the field
contains a special byte, verbatim otherwise. -/
def emitField (sep : Byte) (f : List Byte) : List Byte :=
  if f.any (isSpecial sep) then QUOTE :: dbl f ++ [QUOTE] else f

/-- Emitted fields of one record joined by the separator. -/
def fieldsWire (sep : Byte) : List (List Byte) → List Byte
  | [] => []
  | [f] => emitField sep f
  | f :: rest => emitField sep f ++ sep :: fieldsWire sep rest

/-- The wire form of one record terminated by a newline. -/
def recWire (sep : Byte) (fs : List (List Byte)) : List Byte :=
  fieldsWire sep fs ++ [LF]

/-- The wire form of a record sequence, every record newline-terminated. -/
def wireOf (sep : Byte) (rs : List (List (List Byte))) : List Byte :=
  (rs.map (recWire sep)).flatten

/-- The tokens a record should scan back to: each field with its
end-of-record flag, true exactly on the last field. -/
def recToks : List (List Byte) → List (List Byte × Bool)
  | [] => []
  | [f] => [(f, true)]
  | f :: rest => (f, false) :: recToks rest

/-- Expected tokens of a record sequence. -/
def toksOf (rs : List (List (List Byte))) : List (List Byte × Bool) :=
  (rs.map recToks).flatten

/-- LineReader state (buf.go): buffer, remaining source bytes, read and
write cursors, hard maximum size. -/
structure LineReader where
  buf : List Byte
  rd : List Byte
  r : Nat
  w : Nat
  max : Nat
deriving Repr, DecidableEq

/-- `NewLineReader` (buf.go line 25). -/
def NewLineReader (rd : List Byte) (size maxSize : Nat) : LineReader :=
  { buf := List.replicate size 0, rd := rd, r := 0, w := 0, max := maxSize }

/-- ReadLine outcomes: the `ErrBufferFull` error, end of source with an
empty buffer (io.EOF propagated), or exhausted fuel (the Go loop spins
forever only in the degenerate size-0 configuration). -/
inductive RLErr where
  | bufferFull
  | eof
  | noFuel
deriving Repr, DecidableEq

/-- `bytes.IndexByte(l, LF)`. -/
def findNL (l : List Byte) : Option Nat := l.findIdx? (fun b => b = LF)

/-- The compaction step of `ReadLine` (buf.go lines 47-51): slide the
live bytes `[r,w)` to the front. -/
def rlCompact (b : LineReader) : LineReader :=
  if b.r > 0 then
    { b with buf := sliceL b.buf b.r b.w ++ b.buf.drop (b.w - b.r),
             w := b.w - b.r, r := 0 }
  else b

/-- The growth step of `ReadLine` (buf.go lines 55-65), after the cap
check has passed: double the buffer, keeping the live `w` bytes
(make + copy of `buf[:w]`, the rest zeroed). -/
def rlGrow (b : LineReader) : LineReader :=
  if b.w + 100 > b.buf.length then
    { b with buf := b.buf.take b.w ++
        List.replicate (2 * b.buf.length - b.w) 0 }
  else b

/-- The source read of `ReadLine` (buf.go lines 66-67): fill `buf[w:]`
from the remaining source bytes. -/
def rlRead (b : LineReader) : LineReader :=
  let n := min (b.buf.length - b.w) b.rd.length
  { b with buf := b.buf.take b.w ++ b.rd.take n ++ b.buf.drop (b.w + n),
           w := b.w + n, rd := b.rd.drop n }

/-- The `ReadLine` loop (buf.go lines 33-77). `p` is the search start.
Each pass: look for a newline in `buf[p:w]`; otherwise compact, fail with
`ErrBufferFull` if doubling would exceed `max`, grow if needed, then read
from the source; end of source returns the buffered bytes (io.EOF
counting as end of line when any are buffered). -/
def readLineLoop : Nat → LineReader → Nat → List Byte × Option RLErr × LineReader
  | 0, b, _ => ([], some .noFuel, b)
  | fuel + 1, b, p =>
    match findNL (sliceL b.buf p b.w) with
    | some i =>
      let line := sliceL b.buf p (p + i)
      let line := if line.getLast? = some CR then line.dropLast else line
      (line, none, { b with r := p + i + 1 })
    | none =>
      let b := rlCompact b
      let p := b.w
      if b.w + 100 > b.buf.length ∧ 2 * b.buf.length > b.max then
        (sliceL b.buf 0 b.w, some .bufferFull, { b with r := b.w })
      else
        let b := rlGrow b
        if b.rd = [] then
          if b.w > 0 then (sliceL b.buf 0 b.w, none, { b with r := b.w })
          else (sliceL b.buf 0 b.w, some .eof, { b with r := b.w })
        else
          readLineLoop fuel (rlRead b) p

/-- `LineReader.ReadLine` (buf.go line 33). -/
def LineReader.readLine (fuel : Nat) (b : LineReader) :
    List Byte × Option RLErr × LineReader :=
  readLineLoop fuel b b.r

/-- The buffer invariant of the spec: 0 <= r <= w <= len(buf) <= max
(the lower bound is free over Nat). -/
def LineReader.wf (b : LineReader) : Prop :=
  b.r ≤ b.w ∧ b.w ≤ b.buf.length ∧ b.buf.length ≤ b.max

instance (b : LineReader) : Decidable b.wf := by
  unfold LineReader.wf; infer_instance

/-- The bytes still ahead of the reader: buffered unread bytes followed by
the untouched source. -/
def pending (b : LineReader) : List Byte :=
  sliceL b.buf b.r b.w ++ b.rd

/-! ## Writer lemmas

A writer whose sink never fails (empty schedule) and that has seen no
error stays in that shape, only appending to `out`. Working with the
explicit constructor form `mkClean` keeps every rewrite syntactic. -/

/-- The reader-configuration fields `ScanField` branches on, fixed to the
quoted CSV defaults the round trip runs under: the given separator,
quoting on, guessing off, no trimming, no comment character. All are
preserved by every `ScanField` outcome. -/
def stdR (sep : Byte) (s : Reader) : Prop :=
  s.sep = sep ∧ s.quoted = true ∧ s.guess = false ∧ s.Trim = false ∧
  s.Comment = 0

/-- Total number of fields of a record sequence: the number of
token-producing `ScanField` calls its wire form needs. -/
def numFields (rs : List (List (List Byte))) : Nat :=
  (rs.map List.length).sum

/-- A clean writer: no latched error anywhere, sink accepts everything. -/
def mkClean (out : List Byte) (sep : Byte) (q sor crlf : Bool) : Writer :=
  { b := { out := out, sched := [], err := none }, sep := sep, quoted := q,
    sor := sor, err := none, UseCRLF := crlf }

/-- The closing phase appended after the quoting loop by `Writer.write`. -/
def wqClose (field : List Byte) (r : Nat × Writer) : Writer :=
  let w := r.2.wChunk (field.drop r.1)
  if r.1 ≠ 0 then w.wByte QUOTE else w

/-- The state `ScanField` hands to the branch body: `guess` cleared, the
separator possibly replaced by a guessed candidate, everything else
unchanged. -/
def guessStep (s : Reader) (data : List Byte) : Reader :=
  if s.guess then
    { s with guess := false, sep := if guess data > 0 then guess data else s.sep }
  else s

theorem wByte_mk (out : List Byte) (sep : Byte) (q sor crlf : Bool)
    (c : Byte) :
    (mkClean out sep q sor crlf).wByte c = mkClean (out ++ [c]) sep q sor crlf := by
  rfl

theorem bw_foldl_mk (cs : List Byte) :
    ∀ out : List Byte,
      cs.foldl (fun acc c => (BW.writeByte acc c).2)
        { out := out, sched := [], err := none } =
      { out := out ++ cs, sched := [], err := none } := by
  induction cs with
  | nil => intro out; simp
  | cons c rest ih =>
    intro out
    rw [List.foldl_cons]
    have h := ih (out ++ [c])
    simp only [List.append_assoc, List.singleton_append] at h
    exact h

theorem wChunk_mk (out : List Byte) (sep : Byte) (q sor crlf : Bool)
    (cs : List Byte) :
    (mkClean out sep q sor crlf).wChunk cs =
      mkClean (out ++ cs) sep q sor crlf := by
  simp only [Writer.wChunk, mkClean, BW.writeChunk]
  rw [bw_foldl_mk cs out]
  rfl

/-- Doubling quotes in a quote-free byte string changes nothing. -/
theorem dbl_quoteFree (l : List Byte) (h : ∀ b ∈ l, b ≠ QUOTE) :
    dbl l = l := by
  induction l with
  | nil => rfl
  | cons c rest ih =>
    have hc : c ≠ QUOTE := h c (by simp)
    simp [dbl, hc, ih (fun b hb => h b (by simp [hb]))]

theorem dbl_append (u v : List Byte) : dbl (u ++ v) = dbl u ++ dbl v := by
  induction u with
  | nil => rfl
  | cons c rest ih =>
    by_cases hc : c = QUOTE <;> simp [dbl, hc, ih]

/-- A non-special byte is not a quote. -/
theorem not_special_ne_quote {sep c : Byte} (h : ¬ isSpecial sep c) :
    c ≠ QUOTE := by
  intro hc; exact h (by simp [isSpecial, hc])

theorem mkClean_sep (out : List Byte) (sep : Byte) (q sor crlf : Bool) :
    (mkClean out sep q sor crlf).sep = sep := rfl

theorem sliceL_self (d : List Byte) (a : Nat) : sliceL d a a = [] := by
  simp only [sliceL]
  exact List.drop_eq_nil_of_le (by simp)

theorem drop_cons_of_drop {field rest : List Byte} {c : Byte} {i : Nat}
    (h : field.drop i = c :: rest) : field.drop (i + 1) = rest := by
  have := congrArg (List.drop 1) h
  simpa [List.drop_drop, Nat.add_comm] using this

theorem slice_snoc {field rest : List Byte} {c : Byte} {i last : Nat}
    (h : field.drop i = c :: rest) (hle : last ≤ i) :
    sliceL field last (i + 1) = sliceL field last i ++ [c] := by
  have hlt : i < field.length := by
    by_contra hge
    push_neg at hge
    rw [List.drop_eq_nil_of_le hge] at h
    exact List.noConfusion h
  have hget : field[i]? = some c := by
    rw [List.getElem?_eq_getElem hlt]
    have := congrArg List.head? h
    simpa [List.head?_drop, List.getElem?_eq_getElem hlt] using this
  simp only [sliceL]
  rw [List.take_succ, hget]
  simp only [Option.toList_some]
  rw [List.drop_append_of_le_length (by simp [List.length_take]; omega)]

theorem drop_eq_slice_append {field : List Byte} {i last : Nat}
    (hle : last ≤ i) (hlen : i ≤ field.length) :
    field.drop last = sliceL field last i ++ field.drop i := by
  simp only [sliceL]
  conv_lhs => rw [← List.take_append_drop i field]
  rw [List.drop_append_of_le_length (by simp [List.length_take]; omega)]

/-- Quoting-loop emission after the opening quote: everything from `last`
on is emitted with quotes doubled, then the closing quote. The pending
span `field[last:i]` has been walked without meeting a special byte. -/
theorem wqloop_spec_open (field : List Byte) (sep : Byte) (q sor crlf : Bool) :
    ∀ rest i last out, field.drop i = rest → last ≤ i → 0 < last →
    (∀ b ∈ sliceL field last i, ¬ isSpecial sep b) →
    wqClose field (wqloop field rest i last (mkClean out sep q sor crlf)) =
      mkClean (out ++ dbl (field.drop last) ++ [QUOTE]) sep q sor crlf := by
  intro rest
  induction rest with
  | nil =>
    intro i last out hrest hle hpos hseg
    have hlen : field.length ≤ i := by
      by_contra hlt
      push_neg at hlt
      have h2 := hrest
      rw [List.drop_eq_nil_iff] at h2
      omega
    have hdrop : field.drop last = sliceL field last i := by
      simp only [sliceL]
      rw [List.take_of_length_le (by omega)]
    have hqf : dbl (field.drop last) = field.drop last := by
      rw [hdrop]
      exact dbl_quoteFree _ (fun b hb => not_special_ne_quote (hseg b hb))
    have h0 : ¬ last = 0 := by omega
    simp only [wqloop, wqClose]
    rw [wChunk_mk]
    simp only [ne_eq, h0, not_false_eq_true, if_true]
    rw [wByte_mk, hqf, hdrop]
  | cons c rest ih =>
    intro i last out hrest hle hpos hseg
    have hdropsucc : field.drop (i + 1) = rest := drop_cons_of_drop hrest
    have hilen : i < field.length := by
      by_contra hge
      push_neg at hge
      rw [List.drop_eq_nil_of_le hge] at hrest
      exact List.noConfusion hrest
    have hsplit : field.drop last = sliceL field last i ++ c :: rest := by
      rw [drop_eq_slice_append hle (le_of_lt hilen), hrest]
    have hsegq : dbl (sliceL field last i) = sliceL field last i :=
      dbl_quoteFree _ (fun b hb => not_special_ne_quote (hseg b hb))
    have h0 : ¬ last = 0 := by omega
    simp only [wqloop, mkClean_sep]
    by_cases hc : isSpecial sep c
    · by_cases hq2 : c = QUOTE
      · subst hq2
        simp only [hc, if_true, h0, if_false, if_pos rfl, wChunk_mk, wByte_mk]
        rw [ih (i + 1) (i + 1) _ hdropsucc le_rfl (by omega)
          (by rw [sliceL_self]; simp)]
        rw [hsplit, dbl_append]
        simp [dbl, hsegq, hdropsucc]
      · simp only [hc, if_true, h0, if_false, hq2, wChunk_mk, wByte_mk]
        rw [ih (i + 1) (i + 1) _ hdropsucc le_rfl (by omega)
          (by rw [sliceL_self]; simp)]
        rw [hsplit, dbl_append]
        simp [dbl, hq2, hsegq, hdropsucc]
    · simp only [hc, Bool.false_eq_true, if_false]
      rw [ih (i + 1) last _ hdropsucc (by omega) hpos
        (by intro b hb
            rw [slice_snoc hrest hle] at hb
            rcases List.mem_append.mp hb with h | h
            · exact hseg b h
            · simp at h; subst h; exact hc)]

/-- Quoting loop from a state that has emitted nothing yet (`last = 0`),
the prefix walked so far being special-free: the combined loop and close
emit exactly `emitField`. -/
theorem wqloop_spec_fresh (field : List Byte) (sep : Byte) (q sor crlf : Bool) :
    ∀ rest i out, field.drop i = rest →
    (∀ b ∈ field.take i, ¬ isSpecial sep b) →
    wqClose field (wqloop field rest i 0 (mkClean out sep q sor crlf)) =
      mkClean (out ++ emitField sep field) sep q sor crlf := by
  intro rest
  induction rest with
  | nil =>
    intro i out hrest hpre
    have hlen : field.length ≤ i := by
      by_contra hlt
      push_neg at hlt
      have h2 := hrest
      rw [List.drop_eq_nil_iff] at h2
      omega
    have hfree : ∀ b ∈ field, ¬ isSpecial sep b := by
      intro b hb
      exact hpre b (by rw [List.take_of_length_le hlen]; exact hb)
    have hany : field.any (isSpecial sep) = false := by
      rw [List.any_eq_false]
      exact hfree
    simp only [wqloop, wqClose, List.drop_zero]
    rw [wChunk_mk]
    simp [emitField, hany]
  | cons c rest ih =>
    intro i out hrest hpre
    have hdropsucc : field.drop (i + 1) = rest := drop_cons_of_drop hrest
    have hilen : i < field.length := by
      by_contra hge
      push_neg at hge
      rw [List.drop_eq_nil_of_le hge] at hrest
      exact List.noConfusion hrest
    have hcin : c ∈ field := by
      have : c ∈ field.drop i := by rw [hrest]; simp
      exact List.mem_of_mem_drop this
    have hsplitf : field = field.take i ++ c :: rest := by
      conv_lhs => rw [← List.take_append_drop i field]
      rw [hrest]
    have hpreq : ∀ b ∈ field.take i, b ≠ QUOTE :=
      fun b hb => not_special_ne_quote (hpre b hb)
    simp only [wqloop, mkClean_sep]
    by_cases hc : isSpecial sep c
    · have hany : field.any (isSpecial sep) = true :=
        List.any_eq_true.mpr ⟨c, hcin, hc⟩
      have hslice0 : sliceL field 0 i = field.take i := by
        simp [sliceL]
      by_cases hq2 : c = QUOTE
      · subst hq2
        simp only [hc, if_true, if_pos rfl, wChunk_mk, wByte_mk]
        rw [wqloop_spec_open field sep q sor crlf rest (i + 1) (i + 1) _
          hdropsucc le_rfl (by omega) (by rw [sliceL_self]; simp)]
        rw [hdropsucc]
        simp only [emitField, hany, if_true]
        conv_rhs => rw [hsplitf]
        rw [dbl_append, dbl_quoteFree _ hpreq]
        simp [dbl, hslice0]
      · simp only [hc, if_true, if_pos rfl, hq2, if_false, wChunk_mk, wByte_mk]
        rw [wqloop_spec_open field sep q sor crlf rest (i + 1) (i + 1) _
          hdropsucc le_rfl (by omega) (by rw [sliceL_self]; simp)]
        rw [hdropsucc]
        simp only [emitField, hany, if_true]
        conv_rhs => rw [hsplitf]
        rw [dbl_append, dbl_quoteFree _ hpreq]
        simp [dbl, hq2, hslice0]
    · simp only [hc, Bool.false_eq_true, if_false]
      rw [ih (i + 1) _ hdropsucc
        (by intro b hb
            rw [show field.take (i + 1) = field.take i ++ [c] by
                  rw [List.take_succ]
                  congr 1
                  rw [List.getElem?_eq_getElem hilen]
                  have := congrArg List.head? hrest
                  simp [List.head?_drop, List.getElem?_eq_getElem hilen] at this
                  simp [this]] at hb
            rcases List.mem_append.mp hb with h | h
            · exact hpre b h
            · simp at h; subst h; exact hc)]

theorem mkClean_err (out : List Byte) (sep : Byte) (q sor crlf : Bool) :
    (mkClean out sep q sor crlf).err = none := rfl

theorem mkClean_sor (out : List Byte) (sep : Byte) (q sor crlf : Bool) :
    (mkClean out sep q sor crlf).sor = sor := rfl

theorem mkClean_out (out : List Byte) (sep : Byte) (q sor crlf : Bool) :
    (mkClean out sep q sor crlf).b.out = out := rfl

theorem mkClean_set_sor (out : List Byte) (sep : Byte) (q sor crlf : Bool) :
    { mkClean out sep q sor crlf with sor := false } =
      mkClean out sep q false crlf := rfl

/-- `Writer.write` on a clean quoted-mode writer: emits the separator
(unless at start of record) followed by the field, quote-wrapped with
doubled quotes exactly when the field contains a quote, CR, LF or the
separator; returns true; clears start-of-record. -/
theorem write_mk (out : List Byte) (sep : Byte) (sor crlf : Bool)
    (field : List Byte) :
    (mkClean out sep true sor crlf).write field =
      (true, mkClean (out ++ (if sor then [] else [sep]) ++ emitField sep field)
        sep true false crlf) := by
  cases sor with
  | true =>
    have hfresh := wqloop_spec_fresh field sep true true crlf field 0 out
      (by simp) (by simp)
    have h : (mkClean out sep true true crlf).write field =
        (decide ((wqClose field
            (wqloop field field 0 0 (mkClean out sep true true crlf))).err = none),
         { wqClose field
            (wqloop field field 0 0 (mkClean out sep true true crlf)) with
            sor := false }) := rfl
    rw [h, hfresh, mkClean_set_sor, mkClean_err]
    simp
  | false =>
    have hfresh := wqloop_spec_fresh field sep true false crlf field 0
      (out ++ [sep]) (by simp) (by simp)
    have h : (mkClean out sep true false crlf).write field =
        (decide ((wqClose field
            (wqloop field field 0 0 (mkClean (out ++ [sep]) sep true false crlf))).err = none),
         { wqClose field
            (wqloop field field 0 0 (mkClean (out ++ [sep]) sep true false crlf)) with
            sor := false }) := rfl
    rw [h, hfresh, mkClean_set_sor, mkClean_err]
    simp

/-- `Writer.endOfRecord` on a clean writer: emits the terminator and sets
start-of-record. -/
theorem endOfRecord_mk (out : List Byte) (sep : Byte) (q sor crlf : Bool) :
    (mkClean out sep q sor crlf).endOfRecord =
      mkClean (out ++ (if crlf then [CR] else []) ++ [LF]) sep q true crlf := by
  cases crlf with
  | false =>
    have h : (mkClean out sep q sor false).endOfRecord =
        mkClean (out ++ [LF]) sep q true false := rfl
    rw [h]; simp
  | true =>
    have h : (mkClean out sep q sor true).endOfRecord =
        mkClean (out ++ [CR] ++ [LF]) sep q true true := rfl
    rw [h]; simp

theorem flushW_mk (out : List Byte) (sep : Byte) (q sor crlf : Bool) :
    (mkClean out sep q sor crlf).flushW = mkClean out sep q sor crlf := rfl

theorem writeFields_mk_false (sep : Byte) (crlf : Bool) :
    ∀ fs out, writeFields (mkClean out sep true false crlf) fs =
      mkClean (out ++ (fs.map (fun f => sep :: emitField sep f)).flatten)
        sep true false crlf := by
  intro fs
  induction fs with
  | nil => intro out; simp [writeFields]
  | cons f fs ih =>
    intro out
    simp only [writeFields, List.foldl_cons]
    rw [show ((mkClean out sep true false crlf).write f).2 =
        mkClean (out ++ [sep] ++ emitField sep f) sep true false crlf by
      rw [write_mk]; simp]
    have h := ih (out ++ [sep] ++ emitField sep f)
    simp only [writeFields] at h
    rw [h]
    simp

theorem writeFields_mk_true (sep : Byte) (crlf : Bool) (f : List Byte)
    (fs : List (List Byte)) (out : List Byte) :
    writeFields (mkClean out sep true true crlf) (f :: fs) =
      mkClean (out ++ emitField sep f ++
          (fs.map (fun g => sep :: emitField sep g)).flatten)
        sep true false crlf := by
  simp only [writeFields, List.foldl_cons]
  rw [show ((mkClean out sep true true crlf).write f).2 =
      mkClean (out ++ emitField sep f) sep true false crlf by
    rw [write_mk]; simp]
  have h := writeFields_mk_false sep crlf fs (out ++ emitField sep f)
  simp only [writeFields] at h
  rw [h]

theorem fieldsWire_eq (sep : Byte) :
    ∀ fs f, fieldsWire sep (f :: fs) =
      emitField sep f ++ (fs.map (fun g => sep :: emitField sep g)).flatten := by
  intro fs
  induction fs with
  | nil => intro f; simp [fieldsWire]
  | cons g rest ih =>
    intro f
    rw [show fieldsWire sep (f :: g :: rest) =
        emitField sep f ++ sep :: fieldsWire sep (g :: rest) from rfl]
    rw [ih g]
    simp

/-- Clean-writer emission of a whole record sequence, every record
nonempty and terminated by `EndOfRecord`. -/
theorem writeRecordsTerm_mk (sep : Byte) :
    ∀ rs out, (∀ r ∈ rs, r ≠ []) →
    writeRecordsTerm (mkClean out sep true true false) rs =
      mkClean (out ++ wireOf sep rs) sep true true false := by
  intro rs
  induction rs with
  | nil => intro out _; simp [writeRecordsTerm, wireOf]
  | cons r rest ih =>
    intro out hne
    match r, hne r (by simp) with
    | f :: fs, _ =>
      simp only [writeRecordsTerm, List.foldl_cons]
      rw [writeFields_mk_true sep false f fs out, endOfRecord_mk]
      have h := ih (out ++ emitField sep f ++
          (fs.map (fun g => sep :: emitField sep g)).flatten ++ [LF])
        (fun r hr => hne r (by simp [hr]))
      simp only [writeRecordsTerm] at h
      rw [show ((out ++ emitField sep f ++
            (fs.map (fun g => sep :: emitField sep g)).flatten) ++
            (if false = true then [CR] else []) ++ [LF]) =
          (out ++ emitField sep f ++
            (fs.map (fun g => sep :: emitField sep g)).flatten ++ [LF]) by simp]
      rw [h]
      simp only [wireOf, List.map_cons, List.flatten_cons, recWire,
        fieldsWire_eq sep fs f]
      simp

/-! ### Sticky-error lemmas -/

theorem wByte_latched (w : Writer) (c : Byte) (e e2 : Nat)
    (hw : w.err = some e) (hb : w.b.err = some e2) : w.wByte c = w := by
  obtain ⟨⟨bout, bsched, berr⟩, wsep, wq, wsor, werr, wcrlf⟩ := w
  simp only at hw hb
  subst hw; subst hb
  rfl

theorem write_latched (w : Writer) (f : List Byte) (e : Nat)
    (hw : w.err = some e) : w.write f = (false, w) := by
  simp [Writer.write, hw]

theorem endOfRecord_latched (w : Writer) (e e2 : Nat)
    (hw : w.err = some e) (hb : w.b.err = some e2) :
    w.endOfRecord = { w with sor := true } := by
  obtain ⟨⟨bout, bsched, berr⟩, wsep, wq, wsor, werr, wcrlf⟩ := w
  simp only at hw hb
  subst hw; subst hb
  cases wcrlf <;> rfl

theorem flushW_latched (w : Writer) (e : Nat) (hw : w.err = some e) :
    w.flushW = w := by
  obtain ⟨⟨bout, bsched, berr⟩, wsep, wq, wsor, werr, wcrlf⟩ := w
  simp only at hw
  subst hw
  rfl

/-! ## LineReader lemmas -/

theorem findNL_eq_none (l : List Byte) : findNL l = none ↔ ∀ c ∈ l, c ≠ LF := by
  simp [findNL, List.findIdx?_eq_none_iff]

theorem findNL_lt (l : List Byte) (i : Nat) (h : findNL l = some i) :
    i < l.length := by
  have := List.findIdx?_eq_some_iff_findIdx_eq.mp h
  omega

theorem sliceL_length (d : List Byte) (a bb : Nat) :
    (sliceL d a bb).length = min bb d.length - a := by
  simp [sliceL]

theorem rlCompact_r (b : LineReader) : (rlCompact b).r = 0 := by
  unfold rlCompact
  split
  · rfl
  · omega

theorem rlCompact_w (b : LineReader) : (rlCompact b).w = b.w - b.r := by
  unfold rlCompact
  split
  · rfl
  · omega

theorem rlCompact_max (b : LineReader) : (rlCompact b).max = b.max := by
  unfold rlCompact; split <;> rfl

theorem rlCompact_rd (b : LineReader) : (rlCompact b).rd = b.rd := by
  unfold rlCompact; split <;> rfl

theorem rlCompact_buflen (b : LineReader) (hrw : b.r ≤ b.w)
    (hwl : b.w ≤ b.buf.length) :
    (rlCompact b).buf.length = b.buf.length := by
  unfold rlCompact
  split
  · simp [sliceL_length]
    omega
  · rfl

theorem rlGrow_w (b : LineReader) : (rlGrow b).w = b.w := by
  unfold rlGrow; split <;> rfl

theorem rlGrow_r (b : LineReader) : (rlGrow b).r = b.r := by
  unfold rlGrow; split <;> rfl

theorem rlGrow_max (b : LineReader) : (rlGrow b).max = b.max := by
  unfold rlGrow; split <;> rfl

theorem rlGrow_rd (b : LineReader) : (rlGrow b).rd = b.rd := by
  unfold rlGrow; split <;> rfl

theorem rlGrow_buflen (b : LineReader) (hwl : b.w ≤ b.buf.length) :
    (rlGrow b).buf.length =
      if b.w + 100 > b.buf.length then 2 * b.buf.length else b.buf.length := by
  unfold rlGrow
  split
  · simp
    omega
  · simp_all

theorem rlRead_w (b : LineReader) :
    (rlRead b).w = b.w + min (b.buf.length - b.w) b.rd.length := rfl

theorem rlRead_r (b : LineReader) : (rlRead b).r = b.r := rfl

theorem rlRead_max (b : LineReader) : (rlRead b).max = b.max := rfl

theorem rlRead_rd (b : LineReader) :
    (rlRead b).rd = b.rd.drop (min (b.buf.length - b.w) b.rd.length) := rfl

theorem rlRead_buflen (b : LineReader) (hwl : b.w ≤ b.buf.length) :
    (rlRead b).buf.length = b.buf.length := by
  show (b.buf.take b.w ++ b.rd.take (min (b.buf.length - b.w) b.rd.length) ++
      b.buf.drop (b.w + min (b.buf.length - b.w) b.rd.length)).length = _
  simp
  omega

/-- Invariant preservation for the `ReadLine` loop: the result state is
well formed and the maximum is unchanged, so the buffer never outgrows
`max`. -/
theorem readLineLoop_wf (fuel : Nat) :
    ∀ b p, b.wf → p ≤ b.w →
    (readLineLoop fuel b p).2.2.wf ∧ (readLineLoop fuel b p).2.2.max = b.max := by
  induction fuel with
  | zero => intro b p hwf _; exact ⟨hwf, rfl⟩
  | succ fuel ih =>
    intro b p hwf hp
    obtain ⟨hrw, hwl, hlm⟩ := hwf
    rcases hfind : findNL (sliceL b.buf p b.w) with _ | i
    · -- no newline: compact, maybe fail or grow, then read
      simp only [readLineLoop, hfind]
      have hc_r := rlCompact_r b
      have hc_w := rlCompact_w b
      have hc_len := rlCompact_buflen b hrw hwl
      have hc_max := rlCompact_max b
      have hc_rd := rlCompact_rd b
      split
      · refine ⟨⟨?_, ?_, ?_⟩, ?_⟩ <;> dsimp only <;> omega
      · rename_i hguard
        have hg_w := rlGrow_w (rlCompact b)
        have hg_r := rlGrow_r (rlCompact b)
        have hg_max := rlGrow_max (rlCompact b)
        have hg_rd := rlGrow_rd (rlCompact b)
        have hg_len := rlGrow_buflen (rlCompact b) (by omega)
        have hg_len_le : (rlGrow (rlCompact b)).buf.length ≤ b.max := by
          rw [hg_len]
          split
          · rename_i hcase
            have : ¬ 2 * (rlCompact b).buf.length > (rlCompact b).max := by
              intro hh
              exact hguard ⟨by omega, hh⟩
            omega
          · omega
        have hg_len_ge :
            (rlCompact b).buf.length ≤ (rlGrow (rlCompact b)).buf.length := by
          rw [hg_len]
          split <;> omega
        split
        · split
          · refine ⟨⟨?_, ?_, ?_⟩, ?_⟩ <;> dsimp only <;> omega
          · refine ⟨⟨?_, ?_, ?_⟩, ?_⟩ <;> dsimp only <;> omega
        · have hr_w := rlRead_w (rlGrow (rlCompact b))
          have hr_r := rlRead_r (rlGrow (rlCompact b))
          have hr_max := rlRead_max (rlGrow (rlCompact b))
          have hr_len := rlRead_buflen (rlGrow (rlCompact b)) (by omega)
          have := ih (rlRead (rlGrow (rlCompact b))) (rlCompact b).w
            ⟨by omega, by omega, by omega⟩ (by omega)
          exact ⟨this.1, by omega⟩
    · -- newline found
      simp only [readLineLoop, hfind]
      have hi := findNL_lt _ _ hfind
      rw [sliceL_length] at hi
      refine ⟨⟨?_, ?_, ?_⟩, ?_⟩ <;> dsimp only <;> omega

theorem sliceL_mem_of_le (d : List Byte) (r p w : Nat) (hrp : r ≤ p) :
    ∀ c ∈ sliceL d p w, c ∈ sliceL d r w := by
  intro c hc
  have hdp : sliceL d p w = (sliceL d r w).drop (p - r) := by
    simp only [sliceL, List.drop_drop]
    congr 1
    omega
  rw [hdp] at hc
  exact List.mem_of_mem_drop hc

theorem rlCompact_pending (b : LineReader) (hrw : b.r ≤ b.w)
    (hwl : b.w ≤ b.buf.length) : pending (rlCompact b) = pending b := by
  unfold rlCompact pending
  split
  · dsimp only
    congr 1
    simp only [sliceL, List.drop_zero]
    rw [List.take_left' (by rw [List.length_drop, List.length_take]; omega)]
  · rfl

theorem rlGrow_pending (b : LineReader) (hwl : b.w ≤ b.buf.length) :
    pending (rlGrow b) = pending b := by
  unfold rlGrow pending
  split
  · dsimp only
    congr 1
    simp only [sliceL]
    rw [List.take_left' (by rw [List.length_take]; omega)]
  · rfl

theorem rlRead_pending (b : LineReader) (hrw : b.r ≤ b.w)
    (hwl : b.w ≤ b.buf.length) : pending (rlRead b) = pending b := by
  unfold rlRead pending
  dsimp only
  simp only [sliceL]
  rw [List.take_left' (by
    rw [List.length_append, List.length_take, List.length_take]
    omega)]
  rw [List.drop_append_of_le_length (by rw [List.length_take]; omega)]
  rw [List.append_assoc, List.take_append_drop]

/-- When no newline is coming and the bytes ahead come within 100 of
`max`, the `ReadLine` loop reports `ErrBufferFull` (for any `max` of at
least 200 and a nonempty buffer). -/
theorem readLineLoop_overflow (fuel : Nat) :
    ∀ b p, b.wf → b.r ≤ p → p ≤ b.w → 1 ≤ b.buf.length → 200 ≤ b.max →
    (∀ c ∈ pending b, c ≠ LF) → b.max < (pending b).length + 100 →
    b.rd.length + 1 ≤ fuel →
    (readLineLoop fuel b p).2.1 = some .bufferFull := by
  induction fuel with
  | zero => intro b p _ _ _ _ _ _ _ hf; omega
  | succ fuel ih =>
    intro b p hwf hrp hpw hlen1 hmax hnl hlong hfuel
    obtain ⟨hrw, hwl, hlm⟩ := hwf
    have hfind : findNL (sliceL b.buf p b.w) = none :=
      (findNL_eq_none _).mpr (fun c hc =>
        hnl c (List.mem_append.mpr (Or.inl (sliceL_mem_of_le _ _ _ _ hrp c hc))))
    simp only [readLineLoop, hfind]
    have hc_r := rlCompact_r b
    have hc_w := rlCompact_w b
    have hc_len := rlCompact_buflen b hrw hwl
    have hc_max := rlCompact_max b
    have hc_rd := rlCompact_rd b
    have hc_pend := rlCompact_pending b hrw hwl
    have hplen : (pending b).length = (b.w - b.r) + b.rd.length := by
      simp [pending, sliceL_length]
      omega
    split
    · rfl
    · rename_i hguard
      have hg_w := rlGrow_w (rlCompact b)
      have hg_r := rlGrow_r (rlCompact b)
      have hg_max := rlGrow_max (rlCompact b)
      have hg_rd := rlGrow_rd (rlCompact b)
      have hg_len := rlGrow_buflen (rlCompact b) (by omega)
      have hg_pend := rlGrow_pending (rlCompact b) (by omega)
      have hg_space : (rlCompact b).w + 1 ≤ (rlGrow (rlCompact b)).buf.length := by
        rw [hg_len]
        split <;> omega
      have hg_len_ge :
          (rlCompact b).buf.length ≤ (rlGrow (rlCompact b)).buf.length := by
        rw [hg_len]
        split <;> omega
      have hg_len_le : (rlGrow (rlCompact b)).buf.length ≤ b.max := by
        rw [hg_len]
        split
        · rename_i hcase
          have hnb : ¬ 2 * (rlCompact b).buf.length > (rlCompact b).max :=
            fun hh => hguard ⟨by omega, hh⟩
          omega
        · omega
      split
      · rename_i hrdnil
        exfalso
        have hrdb : b.rd = [] := by
          rw [← hc_rd, ← hg_rd]
          exact hrdnil
        have hl0 : b.rd.length = 0 := by rw [hrdb]; rfl
        omega
      · rename_i hrdne
        have hrdb : b.rd ≠ [] := by
          rw [← hc_rd, ← hg_rd]
          exact hrdne
        have hrdpos : 1 ≤ b.rd.length := List.length_pos.mpr hrdb
        have hr_w := rlRead_w (rlGrow (rlCompact b))
        have hr_r := rlRead_r (rlGrow (rlCompact b))
        have hr_max := rlRead_max (rlGrow (rlCompact b))
        have hr_rd := rlRead_rd (rlGrow (rlCompact b))
        have hr_len := rlRead_buflen (rlGrow (rlCompact b)) (by omega)
        have hr_pend := rlRead_pending (rlGrow (rlCompact b)) (by omega) (by omega)
        have hrdlen : (rlRead (rlGrow (rlCompact b))).rd.length =
            b.rd.length - min ((rlGrow (rlCompact b)).buf.length -
              (rlGrow (rlCompact b)).w) b.rd.length := by
          rw [hr_rd]
          simp [hg_rd, hc_rd]
        apply ih
        · exact ⟨by omega, by omega, by omega⟩
        · omega
        · omega
        · omega
        · omega
        · intro c hc
          rw [hr_pend, hg_pend, hc_pend] at hc
          exact hnl c hc
        · rw [hr_pend, hg_pend, hc_pend]
          omega
        · omega

/-! ## Tokenizer lemmas -/

/-- The guessed separator is 0 or one of the five candidates. -/
theorem guess_cases (data : List Byte) :
    guess data = 0 ∨ guess data ∈ sepCands := by
  unfold guess sepCands
  simp only [List.foldl_cons, List.foldl_nil]
  split_ifs <;> simp [sepCands]

/-- The guessed separator either is 0 with no candidate occurring, or
occurs in the data at least as often as every candidate. -/
theorem guess_spec (data : List Byte) :
    (guess data = 0 ∧ ∀ c ∈ sepCands, data.count c = 0) ∨
    (0 < data.count (guess data) ∧
      ∀ c ∈ sepCands, data.count c ≤ data.count (guess data)) := by
  unfold guess sepCands
  simp only [List.foldl_cons, List.foldl_nil]
  split_ifs
  all_goals simp only [List.mem_cons, List.not_mem_nil, or_false,
    forall_eq_or_imp, forall_eq, gt_iff_lt, not_lt] at *
  all_goals first
    | (left
       refine ⟨?_, by omega, by omega, by omega, by omega, by omega⟩
       trivial)
    | (right; constructor <;> omega)

/-- Splitting one element off a slice. -/
theorem sliceL_cons (d : List Byte) (i adv : Nat) (b : Byte)
    (rest : List Byte) (hdrop : d.drop i = b :: rest) (hadv : i < adv) :
    sliceL d i adv = b :: sliceL d (i + 1) adv := by
  have h1 : sliceL d i adv = (d.drop i).take (adv - i) := by
    simp [sliceL, List.drop_take]
  have h2 : sliceL d (i + 1) adv = (d.drop (i + 1)).take (adv - (i + 1)) := by
    simp [sliceL, List.drop_take]
  rw [h1, h2, hdrop, drop_cons_of_drop hdrop]
  rw [show adv - i = (adv - (i + 1)) + 1 by omega]
  rfl

theorem getElem?_of_drop (d : List Byte) (i : Nat) (b : Byte)
    (rest : List Byte) (hdrop : d.drop i = b :: rest) : d[i]? = some b := by
  have := congrArg List.head? hdrop
  rwa [List.head?_drop] at this

/-- Characterisation of the unquoted-field loop: a separator close ends
on the separator with no newline consumed; a newline close ends on a
newline, consuming exactly that newline, and flags `emptyIdx` exactly for
a zero-length raw token; running out means no separator or newline was
ahead. `Trim` does not exist at this level: `raw` is the untrimmed
token. -/
theorem uloop_spec (sep : Byte) (data : List Byte) (hsep : sep ≠ LF) :
    ∀ rest i prev, data.drop i = rest →
    match uloop sep data rest i prev with
    | .sepClose adv raw => data[adv - 1]? = some sep ∧ i < adv ∧
        (sliceL data i adv).count LF = 0
    | .nlClose adv raw eIdx => data[adv - 1]? = some LF ∧ i < adv ∧
        (sliceL data i adv).count LF = 1 ∧ (eIdx = true ↔ raw = [])
    | .ranOut => (data.drop i).count LF = 0 := by
  intro rest
  induction rest with
  | nil =>
    intro i prev hdrop
    simp only [uloop]
    rw [hdrop]
    rfl
  | cons b rest ih =>
    intro i prev hdrop
    have hbi : data[i]? = some b := getElem?_of_drop data i b rest hdrop
    have hilen : i < data.length := by
      by_contra hge
      push_neg at hge
      rw [List.drop_eq_nil_of_le hge] at hdrop
      exact List.noConfusion hdrop
    have hslice1 : sliceL data i (i + 1) = [b] := by
      rw [sliceL_cons data i (i + 1) b rest hdrop (by omega), sliceL_self]
    simp only [uloop]
    by_cases hbsep : b = sep
    · simp only [hbsep, if_true]
      refine ⟨by simpa [hbsep] using hbi, by omega, ?_⟩
      rw [hslice1]
      simp [hbsep, List.count_cons, Ne.symm hsep]
    · simp only [hbsep, if_false]
      by_cases hbLF : b = LF
      · simp only [hbLF, if_true]
        by_cases hcr : 0 < i ∧ prev = CR
        · simp only [hcr, if_true]
          refine ⟨by simpa [hbLF] using hbi, by omega, ?_, ?_⟩
          · rw [hslice1]
            simp [hbLF]
          · constructor
            · intro h1
              simp at h1
              simp only [sliceL, List.drop_zero]
              rw [h1]
              rfl
            · intro h1
              simp only [sliceL, List.drop_zero] at h1
              have : i - 1 = 0 ∨ data = [] := by
                rcases List.take_eq_nil_iff.mp h1 with h | h
                · exact Or.inl h
                · exact Or.inr h
              rcases this with h | h
              · simp
                omega
              · rw [h] at hilen
                simp at hilen
        · simp only [hcr, if_false]
          refine ⟨by simpa [hbLF] using hbi, by omega, ?_, ?_⟩
          · rw [hslice1]
            simp [hbLF]
          · constructor
            · intro h1
              simp at h1
              simp only [sliceL, List.drop_zero]
              rw [h1]
              rfl
            · intro h1
              simp only [sliceL, List.drop_zero] at h1
              rcases List.take_eq_nil_iff.mp h1 with h | h
              · simp [h]
              · rw [h] at hilen
                simp at hilen
      · simp only [hbLF, if_false]
        have hstep := ih (i + 1) b (drop_cons_of_drop hdrop)
        rcases hres : uloop sep data rest (i + 1) b with ⟨adv, raw⟩ | ⟨adv, raw, eIdx⟩ | _
        · rw [hres] at hstep
          refine ⟨hstep.1, by omega, ?_⟩
          rw [sliceL_cons data i _ b rest hdrop (by omega)]
          simpa [List.count_cons, hbLF] using hstep.2.2
        · rw [hres] at hstep
          refine ⟨hstep.1, by omega, ?_, hstep.2.2.2⟩
          rw [sliceL_cons data i _ b rest hdrop (by omega)]
          simpa [List.count_cons, hbLF] using hstep.2.2.1
        · rw [hres] at hstep
          rw [drop_cons_of_drop hdrop] at hstep
          rw [hdrop]
          simpa [List.count_cons, hbLF] using hstep

/-- Line counting in the quoted-field loop: a close reports the entry
line number plus the newlines among the consumed bytes `data[i:adv]`;
running out of data reports entry plus all newlines from `i` on. -/
theorem qloop_lineno (sep : Byte) (lz : Bool) (data : List Byte) :
    ∀ rest i lineno eq strict pc ppc c0, data.drop i = rest →
    match qloop sep lz data rest i lineno eq strict pc ppc c0 with
    | .close adv _ _ ln => i < adv ∧ ln = lineno + (sliceL data i adv).count LF
    | .err _ _ => True
    | .ranOut ln _ _ _ => ln = lineno + ((data.drop i).count LF) := by
  intro rest
  induction rest with
  | nil =>
    intro i lineno eq strict pc ppc c0 hdrop
    simp only [qloop]
    rw [hdrop]
    rfl
  | cons b rest ih =>
    intro i lineno eq strict pc ppc c0 hdrop
    have hdropsucc := drop_cons_of_drop hdrop
    have hilen : i < data.length := by
      by_contra hge
      push_neg at hge
      rw [List.drop_eq_nil_of_le hge] at hdrop
      exact List.noConfusion hdrop
    have hslice1 : sliceL data i (i + 1) = [b] := by
      rw [sliceL_cons data i (i + 1) b rest hdrop (by omega), sliceL_self]
    have hccons : ∀ adv, i < adv →
        sliceL data i adv = b :: sliceL data (i + 1) adv :=
      fun adv h => sliceL_cons data i adv b rest hdrop h
    simp only [qloop]
    by_cases h1 : b = QUOTE ∧ pc = QUOTE
    · rw [if_pos h1]
      have hbLF : ¬ b = LF := by rw [h1.1]; decide
      rw [if_neg hbLF]
      have hstep := ih (i + 1) lineno (eq + 1) strict 0 ppc b hdropsucc
      rcases hres : qloop sep lz data rest (i + 1) lineno (eq + 1) strict 0 ppc b
        with ⟨adv, tok, e, ln⟩ | ⟨e, ln⟩ | ⟨ln, eq2, st2, c2⟩
      · rw [hres] at hstep
        refine ⟨by omega, ?_⟩
        rw [hccons adv (by omega)]
        simp [List.count_cons, hbLF]
        omega
      · trivial
      · rw [hres] at hstep
        rw [hdropsucc] at hstep
        rw [hdrop]
        simp [List.count_cons, hbLF]
        omega
    · rw [if_neg h1]
      by_cases h2 : pc = QUOTE ∧ b = sep
      · rw [if_pos h2]
        refine ⟨by omega, ?_⟩
        rw [hslice1]
        by_cases hbLF : b = LF
        · rw [if_pos hbLF]
          simp [List.count_cons, hbLF]
        · rw [if_neg hbLF]
          simp [List.count_cons, hbLF]
      · rw [if_neg h2]
        by_cases h3 : pc = QUOTE ∧ b = LF
        · rw [if_pos h3]
          rw [if_pos h3.2]
          refine ⟨by omega, ?_⟩
          rw [hslice1]
          simp [List.count_cons, h3.2]
        · rw [if_neg h3]
          by_cases h4 : b = LF ∧ pc = CR ∧ ppc = QUOTE
          · rw [if_pos h4]
            rw [if_pos h4.1]
            refine ⟨by omega, ?_⟩
            rw [hslice1]
            simp [List.count_cons, h4.1]
          · rw [if_neg h4]
            by_cases h5 : pc = QUOTE ∧ b ≠ CR
            · rw [if_pos h5]
              have hbLF : ¬ b = LF := fun hb => h3 ⟨h5.1, hb⟩
              rw [if_neg hbLF]
              by_cases hlz : lz
              · rw [if_pos hlz]
                have hstep := ih (i + 1) lineno eq false b pc b hdropsucc
                rcases hres : qloop sep lz data rest (i + 1) lineno eq false b pc b
                  with ⟨adv, tok, e, ln⟩ | ⟨e, ln⟩ | ⟨ln, eq2, st2, c2⟩
                · rw [hres] at hstep
                  refine ⟨by omega, ?_⟩
                  rw [hccons adv (by omega)]
                  simp [List.count_cons, hbLF]
                  omega
                · trivial
                · rw [hres] at hstep
                  rw [hdropsucc] at hstep
                  rw [hdrop]
                  simp [List.count_cons, hbLF]
                  omega
              · rw [if_neg hlz]
                trivial
            · rw [if_neg h5]
              by_cases hbLF : b = LF
              · rw [if_pos hbLF]
                have hstep := ih (i + 1) (lineno + 1) eq strict b pc b hdropsucc
                rcases hres :
                    qloop sep lz data rest (i + 1) (lineno + 1) eq strict b pc b
                  with ⟨adv, tok, e, ln⟩ | ⟨e, ln⟩ | ⟨ln, eq2, st2, c2⟩
                · rw [hres] at hstep
                  refine ⟨by omega, ?_⟩
                  rw [hccons adv (by omega)]
                  simp [List.count_cons, hbLF]
                  omega
                · trivial
                · rw [hres] at hstep
                  rw [hdropsucc] at hstep
                  rw [hdrop]
                  simp [List.count_cons, hbLF]
                  omega
              · rw [if_neg hbLF]
                have hstep := ih (i + 1) lineno eq strict b pc b hdropsucc
                rcases hres : qloop sep lz data rest (i + 1) lineno eq strict b pc b
                  with ⟨adv, tok, e, ln⟩ | ⟨e, ln⟩ | ⟨ln, eq2, st2, c2⟩
                · rw [hres] at hstep
                  refine ⟨by omega, ?_⟩
                  rw [hccons adv (by omega)]
                  simp [List.count_cons, hbLF]
                  omega
                · trivial
                · rw [hres] at hstep
                  rw [hdropsucc] at hstep
                  rw [hdrop]
                  simp [List.count_cons, hbLF]
                  omega

/-- The candidate separators are not LF. -/
theorem guess_ne_LF (data : List Byte) (h : 0 < guess data) : guess data ≠ LF := by
  rcases guess_cases data with h0 | hmem
  · rw [h0] at h
    exact absurd h (by decide)
  · intro hLF
    rw [hLF] at hmem
    simp [sepCands, LF] at hmem

theorem scanField_eq_core (s : Reader) (data : List Byte) (atEOF : Bool) :
    scanField s data atEOF =
      if atEOF ∧ data = [] ∧ s.eor then (.more, s)
      else scanFieldCore (guessStep s data) data atEOF := rfl

theorem guessStep_fields (s : Reader) (data : List Byte) :
    (guessStep s data).quoted = s.quoted ∧ (guessStep s data).eor = s.eor ∧
    (guessStep s data).lineno = s.lineno ∧ (guessStep s data).empty = s.empty ∧
    (guessStep s data).Trim = s.Trim ∧ (guessStep s data).Comment = s.Comment ∧
    (guessStep s data).Lazy = s.Lazy := by
  unfold guessStep
  split <;> simp

theorem guessStep_sep_ne_LF (s : Reader) (data : List Byte)
    (hsep : s.sep ≠ LF) : (guessStep s data).sep ≠ LF := by
  unfold guessStep
  split
  · show (if guess data > 0 then guess data else s.sep) ≠ LF
    split
    · rename_i hpos
      exact guess_ne_LF data hpos
    · exact hsep
  · exact hsep

/-- Line counting across one branch-body call: a produced token advances
the line counter by exactly the newlines among the consumed bytes; a
comment-line skip leaves the counter untouched even though it consumes a
newline. -/
theorem scanFieldCore_lineno (s : Reader) (data : List Byte)
    (hsep : s.sep ≠ LF) :
    (∀ adv tk s2, scanFieldCore s data true = (.tok adv tk, s2) →
      s2.lineno = s.lineno + ((data.take adv).count LF)) ∧
    (∀ adv s2, scanFieldCore s data true = (.skip adv, s2) →
      s2.lineno = s.lineno) := by
  unfold scanFieldCore
  by_cases hq : s.quoted = true ∧ data.head? = some QUOTE
  · rw [if_pos hq]
    obtain ⟨tl, hdata⟩ : ∃ tl, data = QUOTE :: tl := by
      rcases data with _ | ⟨b, tl⟩
      · simp at hq
      · have hb : b = QUOTE := by simpa using hq.2
        exact ⟨tl, by rw [hb]⟩
    subst hdata
    simp only [List.tail_cons]
    have hql := qloop_lineno s.sep s.Lazy (QUOTE :: tl) tl 1 s.lineno 0 true
      0 0 0 (by simp)
    rcases hres : qloop s.sep s.Lazy (QUOTE :: tl) tl 1 s.lineno 0 true 0 0 0
      with ⟨adv, tok, e, ln⟩ | ⟨e, ln⟩ | ⟨ln, eq, strict, c⟩
    · rw [hres] at hql
      constructor
      · intro adv2 tk s2 h
        simp only [Prod.mk.injEq, ScanOut.tok.injEq] at h
        obtain ⟨⟨hadv, htk⟩, hs2⟩ := h
        subst hadv
        rw [← hs2]
        simp only
        rw [hql.2]
        have h1 : (QUOTE :: tl).take adv = QUOTE :: tl.take (adv - 1) := by
          rw [show adv = (adv - 1) + 1 by omega]
          rfl
        have h2 : sliceL (QUOTE :: tl) 1 adv = tl.take (adv - 1) := by
          simp only [sliceL, h1]
          rfl
        rw [h1, h2]
        simp [List.count_cons, QUOTE, LF]
      · intro adv2 s2 h
        simp at h
    · rw [hres] at hql
      constructor
      · intro adv2 tk s2 h
        simp at h
      · intro adv2 s2 h
        simp at h
    · rw [hres] at hql
      simp only [if_true]
      by_cases hc : c = QUOTE
      · rw [if_pos hc]
        constructor
        · intro adv2 tk s2 h
          simp only [Prod.mk.injEq, ScanOut.tok.injEq] at h
          obtain ⟨⟨hadv, htk⟩, hs2⟩ := h
          rw [← hs2]
          simp only
          rw [hql]
          rw [← hadv, List.take_length]
          simp [List.count_cons, QUOTE, LF]
        · intro adv2 s2 h
          simp at h
      · rw [if_neg hc]
        constructor
        · intro adv2 tk s2 h
          simp at h
        · intro adv2 s2 h
          simp at h
  · rw [if_neg hq]
    by_cases hcm : s.eor = true ∧ s.Comment ≠ 0 ∧ data.head? = some s.Comment
    · rw [if_pos hcm]
      rcases hcl : cloop data 0 with _ | adv
      · simp only [if_true]
        constructor
        · intro adv2 tk s2 h
          simp at h
        · intro adv2 s2 h
          simp only [Prod.mk.injEq, ScanOut.skip.injEq] at h
          rw [← h.2]
      · constructor
        · intro adv2 tk s2 h
          simp at h
        · intro adv2 s2 h
          simp only [Prod.mk.injEq, ScanOut.skip.injEq] at h
          rw [← h.2]
    · rw [if_neg hcm]
      have hus := uloop_spec s.sep data hsep data 0 0 (by simp)
      rcases hres : uloop s.sep data data 0 0
        with ⟨adv, raw⟩ | ⟨adv, raw, eIdx⟩ | _
      · rw [hres] at hus
        constructor
        · intro adv2 tk s2 h
          simp only [Prod.mk.injEq, ScanOut.tok.injEq] at h
          obtain ⟨⟨hadv, htk⟩, hs2⟩ := h
          subst hadv
          rw [← hs2]
          simp only
          have h0 : (sliceL data 0 adv).count LF = 0 := hus.2.2
          simp only [sliceL, List.drop_zero] at h0
          omega
        · intro adv2 s2 h
          simp at h
      · rw [hres] at hus
        constructor
        · intro adv2 tk s2 h
          simp only [Prod.mk.injEq, ScanOut.tok.injEq] at h
          obtain ⟨⟨hadv, htk⟩, hs2⟩ := h
          subst hadv
          rw [← hs2]
          simp only
          have h1 : (sliceL data 0 adv).count LF = 1 := hus.2.2.1
          simp only [sliceL, List.drop_zero] at h1
          omega
        · intro adv2 s2 h
          simp at h
      · rw [hres] at hus
        simp only [if_true]
        constructor
        · intro adv2 tk s2 h
          simp only [Prod.mk.injEq, ScanOut.tok.injEq] at h
          obtain ⟨⟨hadv, htk⟩, hs2⟩ := h
          rw [← hs2]
          simp only
          rw [← hadv, List.take_length]
          simp only [List.drop_zero] at hus
          omega
        · intro adv2 s2 h
          simp at h

/-- Empty-line bookkeeping across one branch-body call (Trim off,
separator not a newline): a skip (comment line) always leaves the reader
with empty and eor both true; a produced token leaves them both true
exactly when the call started at end of record, produced a zero-length
token, did not enter the quoted branch, and the consumed bytes end in a
newline. -/
theorem scanFieldCore_empty (s : Reader) (data : List Byte)
    (htrim : s.Trim = false) (hsep : s.sep ≠ LF) :
    (∀ adv tk s2, scanFieldCore s data true = (.tok adv tk, s2) →
      ((s2.empty = true ∧ s2.eor = true) ↔
        (s.eor = true ∧ tk = [] ∧
         ¬(s.quoted = true ∧ data.head? = some QUOTE) ∧
         data[adv - 1]? = some LF))) ∧
    (∀ adv s2, scanFieldCore s data true = (.skip adv, s2) →
      (s2.empty = true ∧ s2.eor = true)) := by
  unfold scanFieldCore
  by_cases hq : s.quoted = true ∧ data.head? = some QUOTE
  · rw [if_pos hq]
    obtain ⟨tl, hdata⟩ : ∃ tl, data = QUOTE :: tl := by
      rcases data with _ | ⟨b, tl⟩
      · simp at hq
      · have hb : b = QUOTE := by simpa using hq.2
        exact ⟨tl, by rw [hb]⟩
    subst hdata
    simp only [List.tail_cons]
    rcases hres : qloop s.sep s.Lazy (QUOTE :: tl) tl 1 s.lineno 0 true 0 0 0
      with ⟨adv, tok, e, ln⟩ | ⟨e, ln⟩ | ⟨ln, eq, strict, c⟩
    · constructor
      · intro adv2 tk s2 h
        simp only [Prod.mk.injEq, ScanOut.tok.injEq] at h
        obtain ⟨⟨hadv, htk⟩, hs2⟩ := h
        rw [← hs2]
        simp [hq]
      · intro adv2 s2 h
        simp at h
    · constructor
      · intro adv2 tk s2 h
        simp at h
      · intro adv2 s2 h
        simp at h
    · simp only [if_true]
      by_cases hc : c = QUOTE
      · rw [if_pos hc]
        constructor
        · intro adv2 tk s2 h
          simp only [Prod.mk.injEq, ScanOut.tok.injEq] at h
          obtain ⟨⟨hadv, htk⟩, hs2⟩ := h
          rw [← hs2]
          simp [hq]
        · intro adv2 s2 h
          simp at h
      · rw [if_neg hc]
        constructor
        · intro adv2 tk s2 h
          simp at h
        · intro adv2 s2 h
          simp at h
  · rw [if_neg hq]
    by_cases hcm : s.eor = true ∧ s.Comment ≠ 0 ∧ data.head? = some s.Comment
    · rw [if_pos hcm]
      rcases hcl : cloop data 0 with _ | adv
      · simp only [if_true]
        constructor
        · intro adv2 tk s2 h
          simp at h
        · intro adv2 s2 h
          simp only [Prod.mk.injEq, ScanOut.skip.injEq] at h
          rw [← h.2]
          exact ⟨rfl, hcm.1⟩
      · constructor
        · intro adv2 tk s2 h
          simp at h
        · intro adv2 s2 h
          simp only [Prod.mk.injEq, ScanOut.skip.injEq] at h
          rw [← h.2]
          exact ⟨rfl, hcm.1⟩
    · rw [if_neg hcm]
      have hus := uloop_spec s.sep data hsep data 0 0 (by simp)
      rcases hres : uloop s.sep data data 0 0
        with ⟨adv, raw⟩ | ⟨adv, raw, eIdx⟩ | _
      · rw [hres] at hus
        constructor
        · intro adv2 tk s2 h
          simp only [Prod.mk.injEq, ScanOut.tok.injEq] at h
          obtain ⟨⟨hadv, htk⟩, hs2⟩ := h
          subst hadv
          rw [← hs2]
          constructor
          · intro hL
            exact absurd hL.2 (by simp)
          · intro hR
            have hbad := hR.2.2.2
            rw [hus.1] at hbad
            simp only [Option.some.injEq] at hbad
            exact absurd hbad hsep
        · intro adv2 s2 h
          simp at h
      · rw [hres] at hus
        constructor
        · intro adv2 tk s2 h
          simp only [Prod.mk.injEq, ScanOut.tok.injEq] at h
          obtain ⟨⟨hadv, htk⟩, hs2⟩ := h
          subst hadv
          subst htk
          rw [← hs2]
          simp [htrim, hq, hus.1, hus.2.2.2]
        · intro adv2 s2 h
          simp at h
      · simp only [if_true]
        constructor
        · intro adv2 tk s2 h
          simp only [Prod.mk.injEq, ScanOut.tok.injEq] at h
          obtain ⟨⟨hadv, htk⟩, hs2⟩ := h
          subst hadv
          subst htk
          rw [← hs2]
          constructor
          · intro hL
            exact absurd hL.1 (by simp)
          · intro hR
            obtain ⟨_, hTk, _, hLF2⟩ := hR
            simp only [htrim, if_neg Bool.false_ne_true] at hTk
            subst hTk
            simp at hLF2
        · intro adv2 s2 h
          simp at h

/-- Componentwise congruence for the ranOut constructor. -/
theorem QOut_ranOut_ext {a a2 e e2 : Nat} {s s2 : Bool} {c c2 : Byte}
    (ha : a = a2) (he : e = e2) (hs : s = s2) (hc : c = c2) :
    QOut.ranOut a e s c = QOut.ranOut a2 e2 s2 c2 := by
  rw [ha, he, hs, hc]

/-- Componentwise congruence for the close constructor. -/
theorem QOut_close_ext {a a2 : Nat} {t t2 : List Byte} {e e2 : Bool} {l l2 : Nat}
    (ha : a = a2) (ht : t = t2) (he : e = e2) (hl : l = l2) :
    QOut.close a t e l = QOut.close a2 t2 e2 l2 := by
  rw [ha, ht, he, hl]

/-- The quoted loop on quote-free data runs to the end, counting newlines
and remembering the last byte. -/
theorem qloop_quoteFree (sep : Byte) (lz : Bool) (data : List Byte) :
    ∀ u i lineno eq strict pc ppc c0, (∀ b ∈ u, b ≠ QUOTE) →
    pc ≠ QUOTE → ppc ≠ QUOTE →
    qloop sep lz data u i lineno eq strict pc ppc c0 =
      .ranOut (lineno + u.count LF) eq strict (u.getLastD c0) := by
  intro u
  induction u with
  | nil =>
    intro i lineno eq strict pc ppc c0 _ _ _
    simp [qloop]
  | cons b u ih =>
    intro i lineno eq strict pc ppc c0 hu hpc hppc
    have hbq : b ≠ QUOTE := hu b (by simp)
    simp only [qloop]
    rw [if_neg (show ¬(b = QUOTE ∧ pc = QUOTE) from fun h => hbq h.1)]
    rw [if_neg (show ¬(pc = QUOTE ∧ b = sep) from fun h => hpc h.1)]
    rw [if_neg (show ¬(pc = QUOTE ∧ b = LF) from fun h => hpc h.1)]
    rw [if_neg (show ¬(b = LF ∧ pc = CR ∧ ppc = QUOTE) from fun h => hppc h.2.2)]
    rw [if_neg (show ¬(pc = QUOTE ∧ b ≠ CR) from fun h => hpc h.1)]
    by_cases hbLF : b = LF
    · rw [if_pos hbLF]
      rw [ih (i + 1) (lineno + 1) eq strict b pc b
        (fun x hx => hu x (List.mem_cons_of_mem _ hx)) hbq hpc]
      refine QOut_ranOut_ext ?_ rfl rfl (List.getLastD_cons _ _ _).symm
      rw [List.count_cons, if_pos (show (b == LF) = true by simp [hbLF])]
      omega
    · rw [if_neg hbLF]
      rw [ih (i + 1) lineno eq strict b pc b
        (fun x hx => hu x (List.mem_cons_of_mem _ hx)) hbq hpc]
      refine QOut_ranOut_ext ?_ rfl rfl (List.getLastD_cons _ _ _).symm
      rw [List.count_cons, if_neg (show ¬((b == LF) = true) by simp [hbLF])]
      omega

/-- The quoted loop on quote-free content followed by the closing quote
and a terminator (the separator or a newline) closes there. The token is
the raw in-buffer slice, still to be unescaped by the caller. -/
theorem qloop_close_quoteFree (sep : Byte) (lz : Bool) (data : List Byte)
    (hsQ : sep ≠ QUOTE) (hsLF : sep ≠ LF) :
    ∀ w d rest2 i lineno eq strict pc ppc c0, (∀ b ∈ w, b ≠ QUOTE) →
    (d = sep ∨ d = LF) → pc ≠ QUOTE → ¬(pc = CR ∧ ppc = QUOTE) →
    qloop sep lz data (w ++ QUOTE :: d :: rest2) i lineno eq strict pc ppc c0 =
      .close (i + w.length + 2)
        (unescapeQuotes (sliceL data 1 (i + w.length)) eq strict)
        (decide (d = LF))
        ((lineno + w.count LF) + (if d = LF then 1 else 0)) := by
  intro w
  induction w with
  | nil =>
    intro d rest2 i lineno eq strict pc ppc c0 _ hd hpc _
    simp only [List.nil_append, qloop]
    rw [if_neg (show ¬(True ∧ pc = QUOTE) from fun h => hpc h.2)]
    rw [if_neg (show ¬(pc = QUOTE ∧ QUOTE = sep) from fun h => hpc h.1)]
    rw [if_neg (show ¬(pc = QUOTE ∧ QUOTE = LF) from fun h => hpc h.1)]
    rw [if_neg (show ¬(QUOTE = LF ∧ pc = CR ∧ ppc = QUOTE) from
      fun h => absurd h.1 (by decide))]
    rw [if_neg (show ¬(pc = QUOTE ∧ QUOTE ≠ CR) from fun h => hpc h.1)]
    rw [if_neg (show ¬(QUOTE = LF) by decide)]
    rcases hd with hd | hd
    · subst hd
      rw [if_neg (show ¬(d = QUOTE ∧ True) from fun h => hsQ h.1)]
      rw [if_pos (show True ∧ d = d from ⟨trivial, rfl⟩)]
      rw [if_neg hsLF]
      refine QOut_close_ext ?_ ?_ ?_ ?_
      · simp only [List.length_nil]
      · simp only [List.length_nil]
        rw [show i + 1 - 1 = i + 0 from by omega]
      · simp [hsLF]
      · simp [hsLF]
    · subst hd
      rw [if_neg (show ¬(LF = QUOTE ∧ True) from
        fun h => absurd h.1 (by decide))]
      rw [if_neg (show ¬(True ∧ LF = sep) from fun h => hsLF h.2.symm)]
      rw [if_pos (show True ∧ LF = LF from ⟨trivial, rfl⟩)]
      rw [if_pos (show LF = LF from rfl)]
      refine QOut_close_ext ?_ ?_ ?_ ?_
      · simp only [List.length_nil]
      · simp only [List.length_nil]
        rw [show i + 1 - 1 = i + 0 from by omega]
      · simp
      · simp
  | cons b w ih =>
    intro d rest2 i lineno eq strict pc ppc c0 hw hd hpc hcr
    have hbq : b ≠ QUOTE := hw b (by simp)
    simp only [List.cons_append, qloop]
    rw [if_neg (show ¬(b = QUOTE ∧ pc = QUOTE) from fun h => hbq h.1)]
    rw [if_neg (show ¬(pc = QUOTE ∧ b = sep) from fun h => hpc h.1)]
    rw [if_neg (show ¬(pc = QUOTE ∧ b = LF) from fun h => hpc h.1)]
    rw [if_neg (show ¬(b = LF ∧ pc = CR ∧ ppc = QUOTE) from
      fun h => hcr ⟨h.2.1, h.2.2⟩)]
    rw [if_neg (show ¬(pc = QUOTE ∧ b ≠ CR) from fun h => hpc h.1)]
    simp only [List.append_eq]
    by_cases hbLF : b = LF
    · rw [if_pos hbLF]
      rw [ih d rest2 (i + 1) (lineno + 1) eq strict b pc b
        (fun x hx => hw x (List.mem_cons_of_mem _ hx)) hd hbq
        (fun h => hpc h.2)]
      refine QOut_close_ext ?_ ?_ rfl ?_
      · simp only [List.length_cons]
        omega
      · rw [show i + 1 + w.length = i + (w.length + 1) from by omega]
        simp only [List.length_cons]
      · rw [List.count_cons, if_pos (show (b == LF) = true by simp [hbLF])]
        ring
    · rw [if_neg hbLF]
      rw [ih d rest2 (i + 1) lineno eq strict b pc b
        (fun x hx => hw x (List.mem_cons_of_mem _ hx)) hd hbq
        (fun h => hpc h.2)]
      refine QOut_close_ext ?_ ?_ rfl ?_
      · simp only [List.length_cons]
        omega
      · rw [show i + 1 + w.length = i + (w.length + 1) from by omega]
        simp only [List.length_cons]
      · rw [List.count_cons, if_neg (show ¬((b == LF) = true) by simp [hbLF])]
        ring

/-- With guessing disabled the guess step is the identity. -/
theorem guessStep_noguess (s : Reader) (data : List Byte)
    (hg : s.guess = false) : guessStep s data = s := by
  simp [guessStep, hg]

/-- The default-carrying last element of a quote-free list with a
non-quote default is not a quote. -/
theorem getLastD_ne_quote :
    ∀ (u : List Byte) (c0 : Byte), (∀ b ∈ u, b ≠ QUOTE) → c0 ≠ QUOTE →
    u.getLastD c0 ≠ QUOTE := by
  intro u
  induction u with
  | nil =>
    intro c0 _ hc0
    exact hc0
  | cons b u ih =>
    intro c0 hu _
    rw [List.getLastD_cons]
    exact ih b (fun x hx => hu x (List.mem_cons_of_mem _ hx)) (hu b (by simp))

/-- The quoted loop on quote-free content with one trailing quote runs out
of data with the quote as last byte seen. -/
theorem qloop_trailingQuote (sep : Byte) (lz : Bool) (data : List Byte) :
    ∀ u i lineno eq strict pc ppc c0, (∀ b ∈ u, b ≠ QUOTE) →
    pc ≠ QUOTE → ppc ≠ QUOTE →
    qloop sep lz data (u ++ [QUOTE]) i lineno eq strict pc ppc c0 =
      .ranOut (lineno + u.count LF) eq strict QUOTE := by
  intro u
  induction u with
  | nil =>
    intro i lineno eq strict pc ppc c0 _ hpc hppc
    simp only [List.nil_append, qloop]
    rw [if_neg (show ¬(True ∧ pc = QUOTE) from fun h => hpc h.2)]
    rw [if_neg (show ¬(pc = QUOTE ∧ QUOTE = sep) from fun h => hpc h.1)]
    rw [if_neg (show ¬(pc = QUOTE ∧ QUOTE = LF) from fun h => hpc h.1)]
    rw [if_neg (show ¬(QUOTE = LF ∧ pc = CR ∧ ppc = QUOTE) from
      fun h => absurd h.1 (by decide))]
    rw [if_neg (show ¬(pc = QUOTE ∧ QUOTE ≠ CR) from fun h => hpc h.1)]
    rw [if_neg (show ¬(QUOTE = LF) by decide)]
    simp
  | cons b u ih =>
    intro i lineno eq strict pc ppc c0 hu hpc hppc
    have hbq : b ≠ QUOTE := hu b (by simp)
    simp only [List.cons_append, qloop]
    rw [if_neg (show ¬(b = QUOTE ∧ pc = QUOTE) from fun h => hbq h.1)]
    rw [if_neg (show ¬(pc = QUOTE ∧ b = sep) from fun h => hpc h.1)]
    rw [if_neg (show ¬(pc = QUOTE ∧ b = LF) from fun h => hpc h.1)]
    rw [if_neg (show ¬(b = LF ∧ pc = CR ∧ ppc = QUOTE) from fun h => hppc h.2.2)]
    rw [if_neg (show ¬(pc = QUOTE ∧ b ≠ CR) from fun h => hpc h.1)]
    simp only [List.append_eq]
    by_cases hbLF : b = LF
    · rw [if_pos hbLF]
      rw [ih (i + 1) (lineno + 1) eq strict b pc b
        (fun x hx => hu x (List.mem_cons_of_mem _ hx)) hbq hpc]
      refine QOut_ranOut_ext ?_ rfl rfl rfl
      rw [List.count_cons, if_pos (show (b == LF) = true by simp [hbLF])]
      omega
    · rw [if_neg hbLF]
      rw [ih (i + 1) lineno eq strict b pc b
        (fun x hx => hu x (List.mem_cons_of_mem _ hx)) hbq hpc]
      refine QOut_ranOut_ext ?_ rfl rfl rfl
      rw [List.count_cons, if_neg (show ¬((b == LF) = true) by simp [hbLF])]
      omega

/-- Strict mode: a lone quote inside a quoted field - a quote whose
successor is neither a quote, the separator, a newline nor a carriage
return - makes the quoted loop fail with UnescapedQuote at the line
reached at the offending byte. -/
theorem qloop_loneQuote_strict (sep : Byte) (data : List Byte) :
    ∀ u x rest2 i lineno eq strict pc ppc c0, (∀ b ∈ u, b ≠ QUOTE) →
    x ≠ QUOTE → x ≠ sep → x ≠ LF → x ≠ CR →
    pc ≠ QUOTE → ppc ≠ QUOTE →
    qloop sep false data (u ++ QUOTE :: x :: rest2) i lineno eq strict pc ppc c0 =
      .err (.unescapedQuote (lineno + u.count LF)) (lineno + u.count LF) := by
  intro u
  induction u with
  | nil =>
    intro x rest2 i lineno eq strict pc ppc c0 _ hxQ hxS hxLF hxCR hpc _
    simp only [List.nil_append, qloop]
    rw [if_neg (show ¬(True ∧ pc = QUOTE) from fun h => hpc h.2)]
    rw [if_neg (show ¬(pc = QUOTE ∧ QUOTE = sep) from fun h => hpc h.1)]
    rw [if_neg (show ¬(pc = QUOTE ∧ QUOTE = LF) from fun h => hpc h.1)]
    rw [if_neg (show ¬(QUOTE = LF ∧ pc = CR ∧ ppc = QUOTE) from
      fun h => absurd h.1 (by decide))]
    rw [if_neg (show ¬(pc = QUOTE ∧ QUOTE ≠ CR) from fun h => hpc h.1)]
    rw [if_neg (show ¬(QUOTE = LF) by decide)]
    rw [if_neg (show ¬(x = QUOTE ∧ True) from fun h => hxQ h.1)]
    rw [if_neg (show ¬(True ∧ x = sep) from fun h => hxS h.2)]
    rw [if_neg (show ¬(True ∧ x = LF) from fun h => hxLF h.2)]
    rw [if_neg (show ¬(x = LF ∧ QUOTE = CR ∧ pc = QUOTE) from fun h => hxLF h.1)]
    rw [if_pos (show True ∧ x ≠ CR from ⟨trivial, hxCR⟩)]
    rw [if_neg hxLF]
    simp
  | cons b u ih =>
    intro x rest2 i lineno eq strict pc ppc c0 hu hxQ hxS hxLF hxCR hpc hppc
    have hbq : b ≠ QUOTE := hu b (by simp)
    simp only [List.cons_append, qloop]
    rw [if_neg (show ¬(b = QUOTE ∧ pc = QUOTE) from fun h => hbq h.1)]
    rw [if_neg (show ¬(pc = QUOTE ∧ b = sep) from fun h => hpc h.1)]
    rw [if_neg (show ¬(pc = QUOTE ∧ b = LF) from fun h => hpc h.1)]
    rw [if_neg (show ¬(b = LF ∧ pc = CR ∧ ppc = QUOTE) from fun h => hppc h.2.2)]
    rw [if_neg (show ¬(pc = QUOTE ∧ b ≠ CR) from fun h => hpc h.1)]
    simp only [List.append_eq]
    by_cases hbLF : b = LF
    · rw [if_pos hbLF]
      rw [ih x rest2 (i + 1) (lineno + 1) eq strict b pc b
        (fun y hy => hu y (List.mem_cons_of_mem _ hy)) hxQ hxS hxLF hxCR hbq hpc]
      have hcnt : (b :: u).count LF = u.count LF + 1 := by
        rw [List.count_cons, if_pos (show (b == LF) = true by simp [hbLF])]
      rw [hcnt]
      have harith : lineno + 1 + u.count LF = lineno + (u.count LF + 1) := by
        omega
      rw [harith]
    · rw [if_neg hbLF]
      rw [ih x rest2 (i + 1) lineno eq strict b pc b
        (fun y hy => hu y (List.mem_cons_of_mem _ hy)) hxQ hxS hxLF hxCR hbq hpc]
      have hcnt : (b :: u).count LF = u.count LF := by
        rw [List.count_cons, if_neg (show ¬((b == LF) = true) by simp [hbLF])]
        omega
      rw [hcnt]

/-- Lazy mode: the loop passes a lone quote through as literal content
(clearing the strict flag) and closes at the next quote-terminator pair. -/
theorem qloop_loneQuote_lazy (sep : Byte) (data : List Byte)
    (hsQ : sep ≠ QUOTE) (hsLF : sep ≠ LF) :
    ∀ u x v2 d rest2 i lineno eq strict pc ppc c0,
    (∀ b ∈ u, b ≠ QUOTE) → (∀ b ∈ v2, b ≠ QUOTE) →
    x ≠ QUOTE → x ≠ sep → x ≠ LF → x ≠ CR →
    (d = sep ∨ d = LF) → pc ≠ QUOTE → ppc ≠ QUOTE →
    qloop sep true data (u ++ QUOTE :: x :: (v2 ++ QUOTE :: d :: rest2))
        i lineno eq strict pc ppc c0 =
      .close (i + u.length + v2.length + 4)
        (unescapeQuotes (sliceL data 1 (i + u.length + v2.length + 2)) eq false)
        (decide (d = LF))
        ((lineno + u.count LF + v2.count LF) + (if d = LF then 1 else 0)) := by
  intro u
  induction u with
  | nil =>
    intro x v2 d rest2 i lineno eq strict pc ppc c0 _ hv2 hxQ hxS hxLF hxCR hd hpc _
    simp only [List.nil_append, qloop]
    rw [if_neg (show ¬(True ∧ pc = QUOTE) from fun h => hpc h.2)]
    rw [if_neg (show ¬(pc = QUOTE ∧ QUOTE = sep) from fun h => hpc h.1)]
    rw [if_neg (show ¬(pc = QUOTE ∧ QUOTE = LF) from fun h => hpc h.1)]
    rw [if_neg (show ¬(QUOTE = LF ∧ pc = CR ∧ ppc = QUOTE) from
      fun h => absurd h.1 (by decide))]
    rw [if_neg (show ¬(pc = QUOTE ∧ QUOTE ≠ CR) from fun h => hpc h.1)]
    rw [if_neg (show ¬(QUOTE = LF) by decide)]
    rw [if_neg (show ¬(x = QUOTE ∧ True) from fun h => hxQ h.1)]
    rw [if_neg (show ¬(True ∧ x = sep) from fun h => hxS h.2)]
    rw [if_neg (show ¬(True ∧ x = LF) from fun h => hxLF h.2)]
    rw [if_neg (show ¬(x = LF ∧ QUOTE = CR ∧ pc = QUOTE) from fun h => hxLF h.1)]
    rw [if_pos (show True ∧ x ≠ CR from ⟨trivial, hxCR⟩)]
    rw [if_neg hxLF]
    rw [qloop_close_quoteFree sep true data hsQ hsLF v2 d rest2 (i + 1 + 1)
      lineno eq false x QUOTE x hv2 hd hxQ (fun h => hxCR h.1)]
    refine QOut_close_ext ?_ ?_ rfl ?_
    · simp only [List.length_nil]
      omega
    · rw [show i + 1 + 1 + v2.length = i + List.length ([] : List Byte) +
        v2.length + 2 from by simp only [List.length_nil]; omega]
    · simp only [List.count_nil]
      omega
  | cons b u ih =>
    intro x v2 d rest2 i lineno eq strict pc ppc c0 hu hv2 hxQ hxS hxLF hxCR hd hpc hppc
    have hbq : b ≠ QUOTE := hu b (by simp)
    simp only [List.cons_append, qloop]
    rw [if_neg (show ¬(b = QUOTE ∧ pc = QUOTE) from fun h => hbq h.1)]
    rw [if_neg (show ¬(pc = QUOTE ∧ b = sep) from fun h => hpc h.1)]
    rw [if_neg (show ¬(pc = QUOTE ∧ b = LF) from fun h => hpc h.1)]
    rw [if_neg (show ¬(b = LF ∧ pc = CR ∧ ppc = QUOTE) from fun h => hppc h.2.2)]
    rw [if_neg (show ¬(pc = QUOTE ∧ b ≠ CR) from fun h => hpc h.1)]
    simp only [List.append_eq]
    by_cases hbLF : b = LF
    · rw [if_pos hbLF]
      rw [ih x v2 d rest2 (i + 1) (lineno + 1) eq strict b pc b
        (fun y hy => hu y (List.mem_cons_of_mem _ hy)) hv2 hxQ hxS hxLF hxCR
        hd hbq hpc]
      refine QOut_close_ext ?_ ?_ rfl ?_
      · simp only [List.length_cons]
        omega
      · rw [show i + 1 + u.length + v2.length + 2 =
          i + (b :: u).length + v2.length + 2 from by
            simp only [List.length_cons]; omega]
      · rw [List.count_cons, if_pos (show (b == LF) = true by simp [hbLF])]
        ring
    · rw [if_neg hbLF]
      rw [ih x v2 d rest2 (i + 1) lineno eq strict b pc b
        (fun y hy => hu y (List.mem_cons_of_mem _ hy)) hv2 hxQ hxS hxLF hxCR
        hd hbq hpc]
      refine QOut_close_ext ?_ ?_ rfl ?_
      · simp only [List.length_cons]
        omega
      · rw [show i + 1 + u.length + v2.length + 2 =
          i + (b :: u).length + v2.length + 2 from by
            simp only [List.length_cons]; omega]
      · rw [List.count_cons, if_neg (show ¬((b == LF) = true) by simp [hbLF])]
        ring

/-- Undoubling a doubled byte string recovers the original, strict or
not. -/
theorem unescCompact_dbl (strict : Bool) : ∀ f, unescCompact strict (dbl f) = f := by
  intro f
  induction f with
  | nil => rfl
  | cons x f ih =>
    by_cases hx : x = QUOTE
    · subst hx
      rw [show dbl (QUOTE :: f) = QUOTE :: QUOTE :: dbl f from by simp [dbl]]
      rw [show unescCompact strict (QUOTE :: QUOTE :: dbl f) =
        QUOTE :: unescCompact strict (dbl f) from by simp [unescCompact]]
      rw [ih]
    · rw [show dbl (x :: f) = x :: dbl f from by simp [dbl, hx]]
      rcases hf : dbl f with _ | ⟨c, rest⟩
      · have hnil : f = [] := by
          cases f with
          | nil => rfl
          | cons y g =>
            by_cases hy : y = QUOTE <;> simp [dbl, hy] at hf
        subst hnil
        rfl
      · rw [show unescCompact strict (x :: c :: rest) =
          x :: unescCompact strict (c :: rest) from by
            simp only [unescCompact]
            rw [if_neg (fun h => hx h.1)]]
        rw [← hf, ih]

/-- Doubling adds one byte per quote. -/
theorem dbl_length : ∀ f : List Byte, (dbl f).length = f.length + f.count QUOTE := by
  intro f
  induction f with
  | nil => rfl
  | cons x f ih =>
    by_cases hx : x = QUOTE
    · rw [show dbl (x :: f) = x :: x :: dbl f from by simp [dbl, hx]]
      simp only [List.length_cons, ih, List.count_cons]
      rw [if_pos (show (x == QUOTE) = true by simp [hx])]
      omega
    · rw [show dbl (x :: f) = x :: dbl f from by simp [dbl, hx]]
      simp only [List.length_cons, ih, List.count_cons]
      rw [if_neg (show ¬((x == QUOTE) = true) by simp [hx])]
      omega

/-- The reader's in-place unescape inverts the writer's doubling. -/
theorem unescapeQuotes_dbl (strict : Bool) (f : List Byte) :
    unescapeQuotes (dbl f) (f.count QUOTE) strict = f := by
  by_cases hc : f.count QUOTE = 0
  · rw [unescapeQuotes, if_pos hc]
    exact dbl_quoteFree f (fun b hb => fun hbq => by
      have : QUOTE ∈ f := hbq ▸ hb
      rw [← List.count_pos_iff_mem] at this
      omega)
  · rw [unescapeQuotes, if_neg hc]
    rw [unescCompact_dbl strict f]
    rw [show (dbl f).length - f.count QUOTE = f.length from by
      rw [dbl_length]; omega]
    exact List.take_left f _

/-- The quoted loop on doubled newline-free content followed by the
closing quote and a terminator closes there, having counted one escaped
quote per original quote. -/
theorem qloop_dbl_close (sep : Byte) (lz : Bool) (data : List Byte)
    (hsQ : sep ≠ QUOTE) (hsLF : sep ≠ LF) :
    ∀ f d rest2 i lineno eq strict pc ppc c0,
    (∀ b ∈ f, b ≠ LF ∧ b ≠ CR) → (d = sep ∨ d = LF) →
    pc ≠ QUOTE → pc ≠ CR →
    qloop sep lz data (dbl f ++ QUOTE :: d :: rest2) i lineno eq strict pc ppc c0 =
      .close (i + (dbl f).length + 2)
        (unescapeQuotes (sliceL data 1 (i + (dbl f).length))
          (eq + f.count QUOTE) strict)
        (decide (d = LF))
        (lineno + (if d = LF then 1 else 0)) := by
  intro f
  induction f with
  | nil =>
    intro d rest2 i lineno eq strict pc ppc c0 _ hd hpc hpcCR
    rw [show dbl [] = [] from rfl]
    rw [qloop_close_quoteFree sep lz data hsQ hsLF [] d rest2 i lineno eq
      strict pc ppc c0 (by simp) hd hpc (fun h => hpcCR h.1)]
    refine QOut_close_ext rfl rfl rfl ?_
    simp
  | cons x f ih =>
    intro d rest2 i lineno eq strict pc ppc c0 hf hd hpc hpcCR
    have hxLF : x ≠ LF := (hf x (by simp)).1
    have hxCR : x ≠ CR := (hf x (by simp)).2
    have hQLF : ¬ (QUOTE = LF) := by decide
    by_cases hx : x = QUOTE
    · subst hx
      rw [show dbl (QUOTE :: f) = QUOTE :: QUOTE :: dbl f from by simp [dbl]]
      simp only [List.cons_append, qloop]
      rw [if_neg (show ¬(True ∧ pc = QUOTE) from fun h => hpc h.2)]
      rw [if_neg (show ¬(pc = QUOTE ∧ QUOTE = sep) from fun h => hpc h.1)]
      rw [if_neg (show ¬(pc = QUOTE ∧ QUOTE = LF) from fun h => hpc h.1)]
      rw [if_neg (show ¬(QUOTE = LF ∧ pc = CR ∧ ppc = QUOTE) from
        fun h => absurd h.1 (by decide))]
      rw [if_neg (show ¬(pc = QUOTE ∧ QUOTE ≠ CR) from fun h => hpc h.1)]
      simp only [if_neg hQLF]
      rw [if_pos (show True ∧ True from ⟨trivial, trivial⟩)]
      simp only [List.append_eq]
      rw [ih d rest2 (i + 1 + 1) lineno (eq + 1) strict 0 pc QUOTE
        (fun y hy => hf y (List.mem_cons_of_mem _ hy)) hd
        (by decide) (by decide)]
      refine QOut_close_ext ?_ ?_ rfl rfl
      · simp only [List.length_cons]
        omega
      · rw [show i + 1 + 1 + (dbl f).length =
          i + (QUOTE :: QUOTE :: dbl f).length from by
            simp only [List.length_cons]; omega]
        rw [show eq + 1 + f.count QUOTE = eq + (QUOTE :: f).count QUOTE from by
          rw [List.count_cons, if_pos (show (QUOTE == QUOTE) = true by simp)]
          omega]
    · rw [show dbl (x :: f) = x :: dbl f from by simp [dbl, hx]]
      simp only [List.cons_append, qloop]
      rw [if_neg (show ¬(x = QUOTE ∧ pc = QUOTE) from fun h => hx h.1)]
      rw [if_neg (show ¬(pc = QUOTE ∧ x = sep) from fun h => hpc h.1)]
      rw [if_neg (show ¬(pc = QUOTE ∧ x = LF) from fun h => hpc h.1)]
      rw [if_neg (show ¬(x = LF ∧ pc = CR ∧ ppc = QUOTE) from
        fun h => hxLF h.1)]
      rw [if_neg (show ¬(pc = QUOTE ∧ x ≠ CR) from fun h => hpc h.1)]
      rw [if_neg hxLF]
      simp only [List.append_eq]
      rw [ih d rest2 (i + 1) lineno eq strict x pc x
        (fun y hy => hf y (List.mem_cons_of_mem _ hy)) hd hx hxCR]
      refine QOut_close_ext ?_ ?_ rfl rfl
      · simp only [List.length_cons]
        omega
      · rw [show i + 1 + (dbl f).length = i + (x :: dbl f).length from by
          simp only [List.length_cons]; omega]
        rw [show eq + f.count QUOTE = eq + (x :: f).count QUOTE from by
          rw [List.count_cons, if_neg (show ¬((x == QUOTE) = true) by
            simp [hx])]
          omega]

/-- The unquoted loop on separator-and-newline-free content followed by a
terminator closes at the terminator: at the separator as a mid-record
field, at a newline as a record-ending field (no CRLF trimming when the
content is CR-free and the previous byte is not a CR). -/
theorem uloop_run (sep : Byte) (data : List Byte) (hsLF : sep ≠ LF) :
    ∀ f d rest i prev, (∀ b ∈ f, b ≠ sep ∧ b ≠ LF ∧ b ≠ CR) → prev ≠ CR →
    (d = sep ∨ d = LF) →
    (d = sep →
      uloop sep data (f ++ d :: rest) i prev =
        .sepClose (i + f.length + 1) (sliceL data 0 (i + f.length))) ∧
    (d = LF →
      uloop sep data (f ++ d :: rest) i prev =
        .nlClose (i + f.length + 1) (sliceL data 0 (i + f.length))
          (decide (i + f.length = 0))) := by
  intro f
  induction f with
  | nil =>
    intro d rest i prev _ hprev _
    constructor
    · intro hd
      subst hd
      simp only [List.nil_append, uloop]
      rw [if_pos trivial]
      rw [show i + List.length ([] : List Byte) + 1 = i + 1 from by simp]
      rw [show i + List.length ([] : List Byte) = i from by simp]
    · intro hd
      subst hd
      simp only [List.nil_append, uloop]
      rw [if_neg (fun h => hsLF h.symm)]
      rw [if_pos trivial]
      rw [if_neg (show ¬(0 < i ∧ prev = CR) from fun h => hprev h.2)]
      rw [show i + List.length ([] : List Byte) + 1 = i + 1 from by simp]
      rw [show i + List.length ([] : List Byte) = i from by simp]
  | cons b f ih =>
    intro d rest i prev hf hprev hd
    have hb := hf b (by simp)
    simp only [List.cons_append, uloop]
    rw [if_neg hb.1]
    rw [if_neg hb.2.1]
    simp only [List.append_eq]
    have hrec := ih d rest (i + 1) b
      (fun y hy => hf y (List.mem_cons_of_mem _ hy)) hb.2.2 hd
    constructor
    · intro hdd
      rw [hrec.1 hdd]
      rw [show i + 1 + f.length + 1 = i + (b :: f).length + 1 from by
        simp only [List.length_cons]; omega]
      rw [show i + 1 + f.length = i + (b :: f).length from by
        simp only [List.length_cons]; omega]
    · intro hdd
      rw [hrec.2 hdd]
      rw [show i + 1 + f.length + 1 = i + (b :: f).length + 1 from by
        simp only [List.length_cons]; omega]
      rw [show i + 1 + f.length = i + (b :: f).length from by
        simp only [List.length_cons]; omega]

/-- One `ScanField` call consumes exactly one emitted field and its
terminator, producing the original field bytes, preserving the
configuration and setting end-of-record exactly at a newline
terminator. -/
theorem scanField_emitField (sep : Byte) (s : Reader) (f : List Byte)
    (d : Byte) (rest : List Byte)
    (hstd : stdR sep s)
    (hsQ : sep ≠ QUOTE) (hsLF : sep ≠ LF) (hsCR : sep ≠ CR)
    (hf : ∀ b ∈ f, 32 ≤ b)
    (hd : d = sep ∨ d = LF) :
    ∃ s2, scanField s (emitField sep f ++ d :: rest) true =
        (.tok ((emitField sep f).length + 1) f, s2) ∧
      stdR sep s2 ∧ s2.eor = decide (d = LF) := by
  obtain ⟨hss, hq, hg, ht, hcm⟩ := hstd
  by_cases hspec : f.any (isSpecial sep) = true
  · rw [show emitField sep f = QUOTE :: dbl f ++ [QUOTE] from by
      simp only [emitField, if_pos hspec]]
    rw [show (QUOTE :: dbl f ++ [QUOTE]) ++ d :: rest =
      QUOTE :: (dbl f ++ QUOTE :: d :: rest) from by simp]
    rw [scanField_eq_core]
    rw [if_neg (by simp)]
    rw [guessStep_noguess s _ hg]
    unfold scanFieldCore
    rw [if_pos ⟨hq, rfl⟩]
    simp only [List.tail_cons]
    rw [hss, ht]
    rw [qloop_dbl_close sep s.Lazy (QUOTE :: (dbl f ++ QUOTE :: d :: rest))
      hsQ hsLF f d rest 1 s.lineno 0 true 0 0 0
      (fun b hb => ⟨show b ≠ 10 from fun hc => absurd (hc ▸ hf b hb) (by decide),
        show b ≠ 13 from fun hc => absurd (hc ▸ hf b hb) (by decide)⟩)
      hd (by decide) (by decide)]
    dsimp only
    rw [show 1 + (dbl f).length + 2 =
      (QUOTE :: dbl f ++ [QUOTE]).length + 1 from by simp; omega]
    rw [show sliceL (QUOTE :: (dbl f ++ QUOTE :: d :: rest)) 1
        (1 + (dbl f).length) = dbl f from by
      simp only [sliceL]
      rw [show 1 + (dbl f).length = (dbl f).length + 1 from by omega]
      rw [show (QUOTE :: (dbl f ++ QUOTE :: d :: rest)).take
          ((dbl f).length + 1) =
        QUOTE :: ((dbl f ++ QUOTE :: d :: rest).take (dbl f).length) from rfl]
      rw [List.take_left]
      rfl]
    rw [show (0 + f.count QUOTE) = f.count QUOTE from by omega]
    rw [unescapeQuotes_dbl]
    exact ⟨_, rfl, ⟨rfl, hq, hg, rfl, hcm⟩, rfl⟩
  · have hspec2 : f.any (isSpecial sep) = false := by
      rcases hb : f.any (isSpecial sep) with _ | _
      · rfl
      · exact absurd hb hspec
    have hnotspec : ∀ b ∈ f, b ≠ QUOTE ∧ b ≠ CR ∧ b ≠ LF ∧ b ≠ sep := by
      intro b hb
      have hsp : isSpecial sep b = false := by
        rcases hb2 : isSpecial sep b with _ | _
        · rfl
        · exact absurd (List.any_eq_true.mpr ⟨b, hb, hb2⟩)
            (by rw [hspec2]; simp)
      simp only [isSpecial, Bool.or_eq_false_iff, decide_eq_false_iff_not]
        at hsp
      exact ⟨hsp.1.1.1, hsp.1.1.2, hsp.1.2, hsp.2⟩
    rw [show emitField sep f = f from by
      simp only [emitField, hspec2, Bool.false_eq_true, if_false]]
    have hhead : ∀ q, (f ++ d :: rest).head? = some q → q ≠ QUOTE := by
      cases f with
      | nil =>
        intro q hq2
        simp only [List.nil_append, List.head?_cons, Option.some.injEq] at hq2
        subst hq2
        rcases hd with hd | hd
        · rw [hd]; exact hsQ
        · rw [hd]; decide
      | cons b f2 =>
        intro q hq2
        simp only [List.cons_append, List.head?_cons, Option.some.injEq] at hq2
        subst hq2
        exact (hnotspec b (by simp)).1
    rw [scanField_eq_core]
    rw [if_neg (by simp)]
    rw [guessStep_noguess s _ hg]
    unfold scanFieldCore
    rw [if_neg (fun h => hhead QUOTE h.2 rfl)]
    rw [if_neg (fun h => h.2.1 hcm)]
    rw [hss, ht]
    have hrun := uloop_run sep (f ++ d :: rest) hsLF f d rest 0 0
      (fun b hb => ⟨(hnotspec b hb).2.2.2, (hnotspec b hb).2.2.1,
        (hnotspec b hb).2.1⟩) (by decide) hd
    rcases hd with hd | hd
    · rw [hrun.1 hd]
      dsimp only
      rw [show (0 + f.length + 1) = f.length + 1 from by omega]
      rw [show sliceL (f ++ d :: rest) 0 (0 + f.length) = f from by
        simp only [sliceL, List.drop_zero]
        rw [show 0 + f.length = f.length from by omega]
        exact List.take_left f _]
      rw [if_neg (show ¬(false = true) by decide)]
      refine ⟨_, rfl, ⟨rfl, hq, hg, rfl, hcm⟩, ?_⟩
      rw [hd]
      exact (decide_eq_false hsLF).symm
    · rw [hrun.2 hd]
      dsimp only
      rw [show (0 + f.length + 1) = f.length + 1 from by omega]
      rw [show sliceL (f ++ d :: rest) 0 (0 + f.length) = f from by
        simp only [sliceL, List.drop_zero]
        rw [show 0 + f.length = f.length from by omega]
        exact List.take_left f _]
      rw [if_neg (show ¬(false = true) by decide)]
      refine ⟨_, rfl, ⟨rfl, hq, hg, rfl, hcm⟩, ?_⟩
      rw [hd]
      rfl

/-- With the wire exhausted at end of record the driver stops cleanly. -/
theorem tokenize_empty (k : Nat) (s : Reader) (hs : s.eor = true) :
    tokenize (k + 1) s [] = ([], s, none) := by
  simp only [tokenize]
  rw [show scanField s [] true = (.more, s) from by
    rw [scanField_eq_core, if_pos ⟨rfl, rfl, hs⟩]]

/-- The driver scans one newline-terminated record back into its fields,
flagging end of record exactly on the last one, and continues on the
remaining wire in a clean end-of-record state. -/
theorem tokenize_fields (sep : Byte)
    (hsQ : sep ≠ QUOTE) (hsLF : sep ≠ LF) (hsCR : sep ≠ CR) :
    ∀ (r : List (List Byte)) (s : Reader) (rest : List Byte) (fuel : Nat),
    stdR sep s → (∀ f ∈ r, ∀ b ∈ f, 32 ≤ b) → r ≠ [] →
    ∃ s2, stdR sep s2 ∧ s2.eor = true ∧
      tokenize (fuel + r.length) s (fieldsWire sep r ++ LF :: rest) =
        (recToks r ++ (tokenize fuel s2 rest).1,
         (tokenize fuel s2 rest).2.1, (tokenize fuel s2 rest).2.2) := by
  intro r
  induction r with
  | nil =>
    intro s rest fuel _ _ hne
    exact absurd rfl hne
  | cons f fs ih =>
    intro s rest fuel hstd hok _
    cases fs with
    | nil =>
      obtain ⟨s2, hstep, hstd2, heor⟩ := scanField_emitField sep s f LF rest
        hstd hsQ hsLF hsCR (hok f (by simp)) (Or.inr rfl)
      refine ⟨s2, hstd2, by rw [heor]; rfl, ?_⟩
      rw [show fieldsWire sep [f] = emitField sep f from rfl]
      simp only [List.length_cons, List.length_nil, Nat.zero_add]
      simp only [tokenize]
      rw [hstep]
      dsimp only
      rw [show (emitField sep f ++ LF :: rest).drop
          ((emitField sep f).length + 1) = rest from by
        rw [List.drop_append 1]
        rfl]
      rw [heor]
      rfl
    | cons g fs2 =>
      obtain ⟨s2, hstep, hstd2, heor⟩ := scanField_emitField sep s f sep
        (fieldsWire sep (g :: fs2) ++ LF :: rest)
        hstd hsQ hsLF hsCR (hok f (by simp)) (Or.inl rfl)
      obtain ⟨s3, hstd3, heor3, hrec⟩ := ih s2 rest fuel hstd2
        (fun x hx => hok x (List.mem_cons_of_mem _ hx)) (by simp)
      refine ⟨s3, hstd3, heor3, ?_⟩
      rw [show fieldsWire sep (f :: g :: fs2) =
        emitField sep f ++ sep :: fieldsWire sep (g :: fs2) from rfl]
      rw [show (emitField sep f ++ sep :: fieldsWire sep (g :: fs2)) ++
          LF :: rest =
        emitField sep f ++ sep ::
          (fieldsWire sep (g :: fs2) ++ LF :: rest) from by simp]
      simp only [List.length_cons]
      rw [show fuel + (fs2.length + 1 + 1) = (fuel + (fs2.length + 1)) + 1
        from by omega]
      simp only [tokenize]
      rw [hstep]
      dsimp only
      rw [show (emitField sep f ++ sep ::
          (fieldsWire sep (g :: fs2) ++ LF :: rest)).drop
          ((emitField sep f).length + 1) =
        fieldsWire sep (g :: fs2) ++ LF :: rest from by
        rw [List.drop_append 1]
        rfl]
      simp only [List.length_cons] at hrec
      simp only [tokenize] at hrec
      rw [hrec]
      rw [heor]
      rw [decide_eq_false hsLF]
      rfl

/-- The driver scans a whole wire of newline-terminated records back into
the expected token stream, ending at end of record. -/
theorem tokenize_records (sep : Byte)
    (hsQ : sep ≠ QUOTE) (hsLF : sep ≠ LF) (hsCR : sep ≠ CR) :
    ∀ (rs : List (List (List Byte))) (s : Reader) (rest : List Byte)
      (fuel : Nat),
    stdR sep s → s.eor = true →
    (∀ r ∈ rs, r ≠ []) → (∀ r ∈ rs, ∀ f ∈ r, ∀ b ∈ f, 32 ≤ b) →
    ∃ s2, stdR sep s2 ∧ s2.eor = true ∧
      tokenize (fuel + numFields rs) s (wireOf sep rs ++ rest) =
        (toksOf rs ++ (tokenize fuel s2 rest).1,
         (tokenize fuel s2 rest).2.1, (tokenize fuel s2 rest).2.2) := by
  intro rs
  induction rs with
  | nil =>
    intro s rest fuel hstd heor _ _
    refine ⟨s, hstd, heor, ?_⟩
    rw [show numFields [] = 0 from rfl]
    rw [show wireOf sep [] = [] from rfl]
    rw [show toksOf [] = [] from rfl]
    simp
  | cons r rs2 ih =>
    intro s rest fuel hstd heor hne hok
    obtain ⟨s2, hstd2, heor2, hfld⟩ := tokenize_fields sep hsQ hsLF hsCR r s
      (wireOf sep rs2 ++ rest) (fuel + numFields rs2) hstd
      (hok r (by simp)) (hne r (by simp))
    obtain ⟨s3, hstd3, heor3, hrec⟩ := ih s2 rest fuel hstd2 heor2
      (fun x hx => hne x (List.mem_cons_of_mem _ hx))
      (fun x hx => hok x (List.mem_cons_of_mem _ hx))
    refine ⟨s3, hstd3, heor3, ?_⟩
    rw [show wireOf sep (r :: rs2) = recWire sep r ++ wireOf sep rs2 from by
      simp [wireOf]]
    rw [show (recWire sep r ++ wireOf sep rs2) ++ rest =
      fieldsWire sep r ++ LF :: (wireOf sep rs2 ++ rest) from by
      simp [recWire]]
    rw [show fuel + numFields (r :: rs2) =
      (fuel + numFields rs2) + r.length from by
      simp only [numFields, List.map_cons, List.sum_cons]
      omega]
    rw [hfld]
    rw [hrec]
    rw [show toksOf (r :: rs2) = recToks r ++ toksOf rs2 from by
      simp [toksOf]]
    simp [List.append_assoc]

/-- Each field needs at least one wire byte (its terminator), so a record
sequence of nonempty records never has more fields than wire bytes. -/
theorem numFields_le_wire (sep : Byte) :
    ∀ rs : List (List (List Byte)), (∀ r ∈ rs, r ≠ []) →
    numFields rs ≤ (wireOf sep rs).length := by
  have hfw : ∀ (fs : List (List Byte)) (f : List Byte),
      fs.length ≤ (fieldsWire sep (f :: fs)).length := by
    intro fs
    induction fs with
    | nil => intro f; simp
    | cons g fs2 ih =>
      intro f
      rw [show fieldsWire sep (f :: g :: fs2) =
        emitField sep f ++ sep :: fieldsWire sep (g :: fs2) from rfl]
      have := ih g
      simp only [List.length_append, List.length_cons]
      omega
  intro rs
  induction rs with
  | nil => intro _; simp [numFields, wireOf]
  | cons r rs2 ih =>
    intro hne
    have h2 := ih (fun x hx => hne x (List.mem_cons_of_mem _ hx))
    rw [show numFields (r :: rs2) = r.length + numFields rs2 from by
      simp only [numFields, List.map_cons, List.sum_cons]]
    rw [show wireOf sep (r :: rs2) = recWire sep r ++ wireOf sep rs2 from by
      simp [wireOf]]
    match r, hne r (by simp) with
    | f :: fs, _ =>
      have h1 := hfw fs f
      simp only [recWire, List.length_append, List.length_cons]
      omega

/-! ## Claim theorems -/

/-- C8: a LineReader constructed with an initial size at most max is well
formed; every ReadLine call preserves the invariant r <= w <= len(buf) <=
max (max itself unchanged), so the buffer never grows beyond max; and
when no newline is ahead and the bytes ahead come within 100 of max (any
max of at least 200, nonempty buffer), ReadLine returns ErrBufferFull
rather than growing past max. -/
theorem C8_linereader_buffer (b : LineReader) (fuel : Nat)
    (rd : List Byte) (size maxSize : Nat) (hwf : b.wf) (hsz : size ≤ maxSize) :
    (NewLineReader rd size maxSize).wf ∧
    ((b.readLine fuel).2.2.wf ∧ (b.readLine fuel).2.2.max = b.max) ∧
    ((∀ c ∈ pending b, c ≠ LF) → 1 ≤ b.buf.length → 200 ≤ b.max →
      b.max < (pending b).length + 100 → b.rd.length + 1 ≤ fuel →
      (b.readLine fuel).2.1 = some .bufferFull) := by
  refine ⟨⟨Nat.le_refl 0, by simp [NewLineReader], by simp [NewLineReader, hsz]⟩,
    readLineLoop_wf fuel b b.r hwf hwf.1, ?_⟩
  intro h1 h2 h3 h4 h5
  exact readLineLoop_overflow fuel b b.r hwf le_rfl hwf.1 h2 h3 h1 h4 h5

/-- Witness for C8: a 250-byte newline-free source against max = 230
yields ErrBufferFull. -/
theorem C8_linereader_buffer_witness :
    (NewLineReader (List.replicate 250 121) 16 230).wf ∧
    ((NewLineReader (List.replicate 250 121) 16 230).readLine 251).2.1 =
      some RLErr.bufferFull := by
  have h := C8_linereader_buffer (NewLineReader (List.replicate 250 121) 16 230)
    251 (List.replicate 250 121) 16 230 (by decide) (by decide)
  exact ⟨h.1, h.2.2 (by decide) (by decide) (by decide) (by decide) (by decide)⟩

/-- C3: in quoted mode, `Writer.Write` emits the field wrapped in quotes
with every embedded quote doubled if and only if the field contains the
separator, a quote, a newline, or a carriage return (the code always
counts CR among the triggers); otherwise it emits the field verbatim. A
separator precedes it except at start of record, and the call reports
success on a clean writer. Writing the fields c1, c"2, c\n3, c,4 with
separator comma and quoting enabled emits c1,"c""2","c\n3","c,4" followed
by the terminator. -/
theorem C3_writer_quoting (out : List Byte) (sep : Byte) (sor crlf : Bool)
    (field : List Byte) :
    (((mkClean out sep true sor crlf).write field).2.b.out =
      out ++ (if sor then [] else [sep]) ++
        (if field.any (isSpecial sep) then QUOTE :: dbl field ++ [QUOTE]
         else field)) ∧
    ((mkClean out sep true sor crlf).write field).1 = true ∧
    (writeRecordsTerm (mkClean [] 44 true true false)
        [[[99, 49], [99, 34, 50], [99, 10, 51], [99, 44, 52]]]).b.out =
      [99, 49, 44, 34, 99, 34, 34, 50, 34, 44, 34, 99, 10, 51, 34, 44,
       34, 99, 44, 52, 34, 10] := by
  refine ⟨?_, ?_, ?_⟩
  · rw [write_mk]
    simp [emitField, mkClean_out]
  · rw [write_mk]
  · rfl

/-- C4: with the writer's sticky error latched (and the underlying
buffered writer's own error latched, as every reachable erroring state
has), Write is a no-op returning false, EndOfRecord only resets the
start-of-record flag and emits nothing, Flush changes nothing, and Err
still reports the first error. -/
theorem C4_sticky_error (w : Writer) (e e2 : Nat) (field : List Byte)
    (hw : w.err = some e) (hb : w.b.err = some e2) :
    w.write field = (false, w) ∧
    w.endOfRecord = { w with sor := true } ∧
    w.flushW = w ∧
    w.Err = some e :=
  ⟨write_latched w field e hw, endOfRecord_latched w e e2 hw hb,
   flushW_latched w e hw, hw⟩

/-- Witness for C4 at a concrete erroring writer: the very first sink
write fails with error 7; the next Write is then a no-op returning false
and Err still reports 7. -/
theorem C4_sticky_error_witness :
    (((NewWriter 44 true [some 7]).write [97]).2).write [98] =
      (false, ((NewWriter 44 true [some 7]).write [97]).2) ∧
    (((NewWriter 44 true [some 7]).write [97]).2).Err = some 7 :=
  ⟨(C4_sticky_error _ 7 7 [98] (by decide) (by decide)).1,
   (C4_sticky_error _ 7 7 [98] (by decide) (by decide)).2.2.2⟩

/-- C10: `Writer.Write` of a zero-length field in quoted mode emits no
field bytes and never wraps the empty field in quotes (only the separator
appears, when not at start of record); a record consisting of a single
empty field is serialised as the line terminator alone; and tokenizing
that wire marks the line empty (EmptyLine = empty and eor both true), so
it is indistinguishable from an empty line. -/
theorem C10_empty_field_write (out : List Byte) (sep : Byte) (sor crlf : Bool) :
    ((mkClean out sep true sor crlf).write []).2.b.out =
      out ++ (if sor then [] else [sep]) ∧
    ((mkClean out sep true sor crlf).write []).1 = true ∧
    (writeRecordsTerm (mkClean [] sep true true false) [[[]]]).b.out = [LF] ∧
    ((scanField (NewReader 44 true false) [LF] true).2.empty = true ∧
     (scanField (NewReader 44 true false) [LF] true).2.eor = true ∧
     (scanField (NewReader 44 true false) [LF] true).1 = .tok 1 []) := by
  refine ⟨?_, ?_, ?_, by decide⟩
  · rw [write_mk]
    simp [emitField, isSpecial, mkClean_out]
  · rw [write_mk]
  · rw [writeRecordsTerm_mk sep [[[]]] [] (by simp)]
    simp [wireOf, recWire, fieldsWire, emitField, mkClean_out]

/-- C9 counterexample: scanning a comment line consumes its terminating
newline byte without incrementing the line counter, so it is false that
every newline byte seen increments the counter. With Comment = '#' the
input "#c\nx" yields a skip of 3 bytes that include one newline, while
lineno stays at 1. -/
theorem C9_line_counting_counterexample :
    (scanField { NewReader 44 true false with Comment := 35 }
      [35, 99, 10, 120] true).1 = ScanOut.skip 3 ∧
    (([35, 99, 10, 120] : List Byte).take 3).count LF = 1 ∧
    (scanField { NewReader 44 true false with Comment := 35 }
      [35, 99, 10, 120] true).2.lineno = 1 := by
  decide

/-- C9 (amended): with a separator other than newline, a `ScanField` call
that produces a token advances `lineno` by exactly the number of newline
bytes among the consumed bytes — in particular, across a well-formed
quoted field, by the number of newlines inside it — while a call that
skips bytes without producing a token (a comment line) leaves `lineno`
unchanged even though the skipped bytes include the line's newline. -/
theorem C9_line_counting (s : Reader) (data : List Byte)
    (hsep : s.sep ≠ LF) :
    (∀ adv tk s2, scanField s data true = (.tok adv tk, s2) →
      s2.lineno = s.lineno + ((data.take adv).count LF)) ∧
    (∀ adv s2, scanField s data true = (.skip adv, s2) →
      s2.lineno = s.lineno) := by
  rw [scanField_eq_core]
  by_cases htop : (true = true) ∧ data = [] ∧ s.eor = true
  · rw [if_pos htop]
    constructor
    · intro adv tk s2 hh
      simp at hh
    · intro adv s2 hh
      simp at hh
  · rw [if_neg htop]
    have hcore := scanFieldCore_lineno (guessStep s data) data
      (guessStep_sep_ne_LF s data hsep)
    have hf := guessStep_fields s data
    constructor
    · intro adv tk s2 hh
      rw [hcore.1 adv tk s2 hh, hf.2.2.1]
    · intro adv s2 hh
      rw [hcore.2 adv s2 hh, hf.2.2.1]

/-- C9 witness: scanning the quoted field "a\n\nb" followed by a newline
consumes 7 bytes containing 3 newlines and moves lineno from 1 to 4. -/
theorem C9_line_counting_witness :
    (NewReader 44 true false).sep ≠ LF ∧
    ((scanField (NewReader 44 true false) [34, 97, 10, 10, 98, 34, 10]
        true).2).lineno =
      (NewReader 44 true false).lineno +
        ((([34, 97, 10, 10, 98, 34, 10] : List Byte).take 7).count LF) :=
  ⟨by decide,
   (C9_line_counting (NewReader 44 true false) [34, 97, 10, 10, 98, 34, 10]
       (by decide)).1 7 [97, 10, 10, 98] _ (by decide)⟩

/-- C7 counterexample: the quoted empty field `""` followed by a newline
is zero-length and record-terminating, is the first field on its line, and
is not a comment, yet the reader reports empty = false (the quoted branch
clears the flag unconditionally), so the claimed biconditional fails for
quoted fields. -/
theorem C7_empty_line_counterexample :
    (scanField (NewReader 44 true false) [34, 34, 10] true).1 =
      ScanOut.tok 3 [] ∧
    (scanField (NewReader 44 true false) [34, 34, 10] true).2.eor = true ∧
    (scanField (NewReader 44 true false) [34, 34, 10] true).2.empty =
      false := by
  decide

/-- C7 (amended): with Trim off and a separator other than newline, after
a `ScanField` call that skips a comment line the reader reports an empty
line (empty and eor both true, the conjunction `EmptyLine` returns); after
a call that produces a token it reports an empty line exactly when the
call started at end of record, the token is zero-length, the call did not
enter the quoted branch, and the consumed bytes end in a newline. -/
theorem C7_empty_line (s : Reader) (data : List Byte)
    (htrim : s.Trim = false) (hsep : s.sep ≠ LF) :
    (∀ adv tk s2, scanField s data true = (.tok adv tk, s2) →
      ((s2.empty = true ∧ s2.eor = true) ↔
        (s.eor = true ∧ tk = [] ∧
         ¬(s.quoted = true ∧ data.head? = some QUOTE) ∧
         data[adv - 1]? = some LF))) ∧
    (∀ adv s2, scanField s data true = (.skip adv, s2) →
      (s2.empty = true ∧ s2.eor = true)) := by
  rw [scanField_eq_core]
  by_cases htop : (true = true) ∧ data = [] ∧ s.eor = true
  · rw [if_pos htop]
    constructor
    · intro adv tk s2 hh
      simp at hh
    · intro adv s2 hh
      simp at hh
  · rw [if_neg htop]
    have hf := guessStep_fields s data
    have hcore := scanFieldCore_empty (guessStep s data) data
      (by rw [hf.2.2.2.2.1, htrim]) (guessStep_sep_ne_LF s data hsep)
    constructor
    · intro adv tk s2 hh
      have hiff := hcore.1 adv tk s2 hh
      rw [hf.1, hf.2.1] at hiff
      exact hiff
    · intro adv s2 hh
      exact hcore.2 adv s2 hh

/-- C7 witness: on a bare newline from start of record the token is empty
and record-terminating and the reader reports an empty line, matching both
sides of the amended biconditional. -/
theorem C7_empty_line_witness :
    (NewReader 44 true false).Trim = false ∧
    (NewReader 44 true false).sep ≠ LF ∧
    (((scanField (NewReader 44 true false) [10] true).2.empty = true ∧
      (scanField (NewReader 44 true false) [10] true).2.eor = true) ↔
     ((NewReader 44 true false).eor = true ∧ ([] : List Byte) = [] ∧
      ¬((NewReader 44 true false).quoted = true ∧
        ([10] : List Byte).head? = some QUOTE) ∧
      ([10] : List Byte)[1 - 1]? = some LF)) :=
  ⟨rfl, by decide,
   (C7_empty_line (NewReader 44 true false) [10] rfl (by decide)).1 1 []
     _ (by decide)⟩

/-- C5 counterexample: with configured separator tab and input "a;b,c",
comma and semicolon tie with one occurrence each, yet the reader adopts
comma (a maximal candidate - the code's strict-majority scan over the
count map never falls back to the configured separator on a tie between
occurring candidates), not the configured tab. -/
theorem C5_guess_counterexample :
    ([97, 59, 98, 44, 99, 10] : List Byte).count 44 =
      ([97, 59, 98, 44, 99, 10] : List Byte).count 59 ∧
    (scanField (NewReader 9 true true) [97, 59, 98, 44, 99, 10]
      true).2.sep = 44 := by
  decide

/-- C5 (amended): when guess mode is enabled, the first `ScanField` call
disables guessing and adopts `guess data` as separator when it is nonzero,
keeping the configured separator otherwise; `guess` returns 0 exactly when
no candidate of {comma, semicolon, tab, pipe, colon} occurs, and otherwise
a candidate with maximal occurrence count (on a tie, the map-iteration
winner - first in this model's candidate order - not the configured
separator); on "a,b;c\td:e|f;g" the majority candidate ';' is selected
and the fields are "a,b", "c\td:e|f", "g". -/
theorem C5_separator_guess (s : Reader) (data : List Byte)
    (hg : s.guess = true) :
    ((guessStep s data).guess = false ∧
     (guessStep s data).sep =
       (if guess data > 0 then guess data else s.sep) ∧
     scanField s data true =
       (if (true = true) ∧ data = [] ∧ s.eor = true then (ScanOut.more, s)
        else scanFieldCore (guessStep s data) data true)) ∧
    ((guess data = 0 ∧ ∀ c ∈ sepCands, data.count c = 0) ∨
     (0 < data.count (guess data) ∧
      ∀ c ∈ sepCands, data.count c ≤ data.count (guess data))) ∧
    ((tokenizeAll (NewReader 44 true true)
        [97, 44, 98, 59, 99, 9, 100, 58, 101, 124, 102, 59, 103]).1 =
       [([97, 44, 98], false), ([99, 9, 100, 58, 101, 124, 102], false),
        ([103], true)] ∧
     (tokenizeAll (NewReader 44 true true)
        [97, 44, 98, 59, 99, 9, 100, 58, 101, 124, 102, 59, 103]).2.1.sep
       = 59 ∧
     (tokenizeAll (NewReader 44 true true)
        [97, 44, 98, 59, 99, 9, 100, 58, 101, 124, 102, 59, 103]).2.1.guess
       = false ∧
     (tokenizeAll (NewReader 44 true true)
        [97, 44, 98, 59, 99, 9, 100, 58, 101, 124, 102, 59, 103]).2.2
       = none) := by
  refine ⟨⟨?_, ?_, scanField_eq_core s data true⟩, guess_spec data, by decide⟩
  · simp [guessStep, hg]
  · simp [guessStep, hg]

/-- C5 witness: at a concrete enabled-guess reader the first call disables
guessing and, with no candidate occurring in "a", retains the configured
tab separator. -/
theorem C5_separator_guess_witness :
    (NewReader 9 true true).guess = true ∧
    (guessStep (NewReader 9 true true) [97]).guess = false ∧
    (guessStep (NewReader 9 true true) [97]).sep =
      (if guess [97] > 0 then guess [97] else (NewReader 9 true true).sep) :=
  ⟨rfl, (C5_separator_guess (NewReader 9 true true) [97] rfl).1.1,
   (C5_separator_guess (NewReader 9 true true) [97] rfl).1.2.1⟩

/-- C6 counterexample: the input bytes of `"a""` end inside an escaped
quote pair - the quote is logically still open - yet ScanField at end of
stream closes the field successfully (returning token "a", the in-place
unescape having dropped a byte) instead of failing with
NonTerminatedQuote: the code checks only whether the last byte is a
quote. -/
theorem C6_eof_quote_counterexample :
    (scanField (NewReader 44 true false) [34, 97, 34, 34] true).1 =
      ScanOut.tok 4 [97] ∧
    (scanField (NewReader 44 true false) [34, 97, 34, 34] true).2.eor =
      true := by
  decide

/-- C6 (amended): for a quoted field read at end of stream (quoting on,
guessing off, first byte a quote, the remaining bytes quote-free): when
the data does not end in a quote the call fails with NonTerminatedQuote
reporting the line on which the field started; when the data ends in a
closing quote the field closes successfully with end of record true. The
code's criterion is only whether the last byte is a quote, so a trailing
quote closes the field even when it is logically the opener of an escaped
pair. -/
theorem C6_eof_quote (s : Reader) (u : List Byte)
    (hq : s.quoted = true) (hg : s.guess = false)
    (hu : ∀ b ∈ u, b ≠ QUOTE) :
    scanField s (QUOTE :: u) true =
      (.fail (.nonTerminatedQuote s.lineno),
       { s with empty := false, lineno := s.lineno + u.count LF }) ∧
    scanField s (QUOTE :: (u ++ [QUOTE])) true =
      (.tok (u.length + 2) u,
       { s with empty := false, eor := true,
                lineno := s.lineno + u.count LF }) := by
  constructor
  · rw [scanField_eq_core]
    rw [if_neg (by simp)]
    rw [guessStep_noguess s _ hg]
    unfold scanFieldCore
    rw [if_pos ⟨hq, rfl⟩]
    simp only [List.tail_cons]
    rw [qloop_quoteFree s.sep s.Lazy (QUOTE :: u) u 1 s.lineno 0 true 0 0 0
      hu (by decide) (by decide)]
    dsimp only
    rw [if_pos trivial, if_neg (getLastD_ne_quote u 0 hu (by decide))]
  · rw [scanField_eq_core]
    rw [if_neg (by simp)]
    rw [guessStep_noguess s _ hg]
    unfold scanFieldCore
    rw [if_pos ⟨hq, rfl⟩]
    simp only [List.tail_cons]
    rw [qloop_trailingQuote s.sep s.Lazy (QUOTE :: (u ++ [QUOTE])) u 1
      s.lineno 0 true 0 0 0 hu (by decide) (by decide)]
    dsimp only
    rw [if_pos trivial]
    have hlen : (QUOTE :: (u ++ [QUOTE])).length = u.length + 2 := by
      simp
    rw [hlen]
    have hsub : u.length + 2 - 1 = u.length + 1 := rfl
    rw [hsub]
    have hslice : sliceL (QUOTE :: (u ++ [QUOTE])) 1 (u.length + 1) = u := by
      simp only [sliceL]
      rw [show (QUOTE :: (u ++ [QUOTE])).take (u.length + 1) =
        QUOTE :: (u ++ [QUOTE]).take u.length from rfl]
      rw [List.take_left]
      rfl
    rw [hslice]
    have hu0 : unescapeQuotes u 0 true = u := by
      unfold unescapeQuotes
      rw [if_pos rfl]
    rw [hu0]
    rw [if_pos (show QUOTE = QUOTE from rfl)]

/-- C6 witness: the lone quoted byte "a with no closing quote fails at end
of stream with NonTerminatedQuote at the field's starting line. -/
theorem C6_eof_quote_witness :
    (NewReader 44 true false).quoted = true ∧
    (NewReader 44 true false).guess = false ∧
    scanField (NewReader 44 true false) (QUOTE :: [97]) true =
      (.fail (.nonTerminatedQuote (NewReader 44 true false).lineno),
       { NewReader 44 true false with
           empty := false,
           lineno := (NewReader 44 true false).lineno +
             ([97] : List Byte).count LF }) :=
  ⟨rfl, rfl,
   (C6_eof_quote (NewReader 44 true false) [97] rfl rfl (by decide)).1⟩

/-- C2 counterexample: the claimed failing input `a "word","b"` does not
start with a quote, so the quoted-field rules never apply: under strict
quoting it tokenizes without error into the unquoted field `a "word"` and
the quoted field `b`, instead of failing with UnescapedQuote at line 1. -/
theorem C2_unescaped_quote_counterexample :
    (tokenizeAll (NewReader 44 true false)
      [97, 32, 34, 119, 111, 114, 100, 34, 44, 34, 98, 34]).1 =
      [([97, 32, 34, 119, 111, 114, 100, 34], false), ([98], true)] ∧
    (tokenizeAll (NewReader 44 true false)
      [97, 32, 34, 119, 111, 114, 100, 34, 44, 34, 98, 34]).2.2 = none := by
  decide

/-- C2 (amended): in a quoted field (quoting on, guessing off, first byte
a quote) containing a lone quote followed by a byte other than a quote,
the separator, a newline or a carriage return: with Lazy false ScanField
fails with UnescapedQuote reporting the line reached (no column is
reported); with Lazy true the lone quote becomes literal field content and
scanning continues to the next closing quote. On the quoted input
`"a "word","b"` strict mode fails with UnescapedQuote at line 1 and lazy
mode yields the field `a "word` (no trailing quote) then `b`. -/
theorem C2_unescaped_quote (s : Reader) (u v2 rest2 : List Byte) (x d : Byte)
    (hq : s.quoted = true) (hg : s.guess = false)
    (hu : ∀ b ∈ u, b ≠ QUOTE) (hv2 : ∀ b ∈ v2, b ≠ QUOTE)
    (hxQ : x ≠ QUOTE) (hxS : x ≠ s.sep) (hxLF : x ≠ LF) (hxCR : x ≠ CR)
    (hd : d = s.sep ∨ d = LF) (hsQ : s.sep ≠ QUOTE) (hsLF : s.sep ≠ LF) :
    (s.Lazy = false →
      (scanField s (QUOTE :: (u ++ QUOTE :: x :: rest2)) true).1 =
        ScanOut.fail (.unescapedQuote (s.lineno + u.count LF))) ∧
    (s.Lazy = true →
      (scanField s (QUOTE :: (u ++ QUOTE :: x :: (v2 ++ QUOTE :: d :: rest2)))
          true).1 =
        ScanOut.tok (u.length + v2.length + 5) (u ++ QUOTE :: x :: v2)) ∧
    (tokenizeAll (NewReader 44 true false)
        [34, 97, 32, 34, 119, 111, 114, 100, 34, 44, 34, 98, 34]).2.2 =
      some (.unescapedQuote 1) ∧
    (tokenizeAll { NewReader 44 true false with Lazy := true }
        [34, 97, 32, 34, 119, 111, 114, 100, 34, 44, 34, 98, 34]).1 =
      [([97, 32, 34, 119, 111, 114, 100], false), ([98], true)] ∧
    (tokenizeAll { NewReader 44 true false with Lazy := true }
        [34, 97, 32, 34, 119, 111, 114, 100, 34, 44, 34, 98, 34]).2.2 =
      none := by
  refine ⟨?_, ?_, by decide, by decide, by decide⟩
  · intro hlz
    rw [scanField_eq_core]
    rw [if_neg (by simp)]
    rw [guessStep_noguess s _ hg]
    unfold scanFieldCore
    rw [if_pos ⟨hq, rfl⟩]
    simp only [List.tail_cons]
    rw [hlz]
    rw [qloop_loneQuote_strict s.sep
      (QUOTE :: (u ++ QUOTE :: x :: rest2)) u x rest2
      1 s.lineno 0 true 0 0 0 hu hxQ hxS hxLF hxCR (by decide) (by decide)]
  · intro hlz
    rw [scanField_eq_core]
    rw [if_neg (by simp)]
    rw [guessStep_noguess s _ hg]
    unfold scanFieldCore
    rw [if_pos ⟨hq, rfl⟩]
    simp only [List.tail_cons]
    rw [hlz]
    rw [qloop_loneQuote_lazy s.sep
      (QUOTE :: (u ++ QUOTE :: x :: (v2 ++ QUOTE :: d :: rest2))) hsQ hsLF
      u x v2 d rest2 1 s.lineno 0 true 0 0 0 hu hv2 hxQ hxS hxLF hxCR hd
      (by decide) (by decide)]
    dsimp only
    have hadv : 1 + u.length + v2.length + 4 = u.length + v2.length + 5 := by
      omega
    rw [hadv]
    have hidx : 1 + u.length + v2.length + 2 =
        (u.length + (v2.length + 2)) + 1 := by
      omega
    rw [hidx]
    have hslice : sliceL
        (QUOTE :: (u ++ QUOTE :: x :: (v2 ++ QUOTE :: d :: rest2))) 1
        ((u.length + (v2.length + 2)) + 1) = u ++ QUOTE :: x :: v2 := by
      simp only [sliceL]
      rw [show (QUOTE :: (u ++ QUOTE :: x :: (v2 ++ QUOTE :: d :: rest2))).take
            ((u.length + (v2.length + 2)) + 1) =
          QUOTE :: ((u ++ QUOTE :: x :: (v2 ++ QUOTE :: d :: rest2)).take
            (u.length + (v2.length + 2))) from rfl]
      rw [List.take_append (v2.length + 2)]
      rw [show (QUOTE :: x :: (v2 ++ QUOTE :: d :: rest2)).take
            (v2.length + 2) =
          QUOTE :: x :: ((v2 ++ QUOTE :: d :: rest2).take v2.length) from rfl]
      rw [List.take_left]
      rfl
    rw [hslice]
    have hu0 : unescapeQuotes (u ++ QUOTE :: x :: v2) 0 false =
        u ++ QUOTE :: x :: v2 := by
      unfold unescapeQuotes
      rw [if_pos rfl]
    rw [hu0]

/-- C2 witness: the wire `""w` fails strict with UnescapedQuote at line 1;
the wire `""w",` in lazy mode yields the two-byte field `"w`. -/
theorem C2_unescaped_quote_witness :
    (NewReader 44 true false).Lazy = false ∧
    (scanField (NewReader 44 true false)
        (QUOTE :: ([] ++ QUOTE :: 119 :: [])) true).1 =
      ScanOut.fail (.unescapedQuote ((NewReader 44 true false).lineno +
        ([] : List Byte).count LF)) ∧
    ({ NewReader 44 true false with Lazy := true }).Lazy = true ∧
    (scanField { NewReader 44 true false with Lazy := true }
        (QUOTE :: ([] ++ QUOTE :: 119 :: ([] ++ QUOTE :: 44 :: []))) true).1 =
      ScanOut.tok (([] : List Byte).length + ([] : List Byte).length + 5)
        ([] ++ QUOTE :: 119 :: []) :=
  ⟨rfl,
   (C2_unescaped_quote (NewReader 44 true false) [] [] [] 119 44 rfl rfl
      (by decide) (by decide) (by decide) (by decide) (by decide) (by decide)
      (by decide) (by decide) (by decide)).1 rfl,
   rfl,
   (C2_unescaped_quote { NewReader 44 true false with Lazy := true }
      [] [] [] 119 44 rfl rfl
      (by decide) (by decide) (by decide) (by decide) (by decide) (by decide)
      (by decide) (by decide) (by decide)).2.1 rfl⟩

/-- C1 counterexample: with EndOfRecord only BETWEEN records, the single
record holding one empty field (no control bytes) serialises to an empty
wire, which tokenizes to no tokens at all instead of the original
one-field record. -/
theorem C1_round_trip_counterexample :
    (writeRecordsBetween (mkClean [] 44 true true false) [[[]]]).b.out =
      [] ∧
    (tokenizeAll (NewReader 44 true false) []).1 = [] ∧
    toksOf [[[]]] = [([], (true : Bool))] := by
  decide

/-- C1 (amended): for records written with EndOfRecord AFTER every record
(the terminator variant; the between-records variant loses the last
record's boundary, see the counterexample), with every record nonempty,
every field free of control bytes (all bytes at least 32) and a separator
other than quote, newline or carriage return: the writer in quoted mode
emits the canonical wire, and tokenizing that wire with the same
separator, quoting on and Trim off yields exactly the original fields in
order, with end of record true exactly at the original record boundaries,
and no error. -/
theorem C1_round_trip (sep : Byte) (rs : List (List (List Byte)))
    (hsQ : sep ≠ QUOTE) (hsLF : sep ≠ LF) (hsCR : sep ≠ CR)
    (hne : ∀ r ∈ rs, r ≠ [])
    (hok : ∀ r ∈ rs, ∀ f ∈ r, ∀ b ∈ f, 32 ≤ b) :
    (writeRecordsTerm (mkClean [] sep true true false) rs).b.out =
      wireOf sep rs ∧
    (tokenizeAll (NewReader sep true false) (wireOf sep rs)).1 =
      toksOf rs ∧
    (tokenizeAll (NewReader sep true false) (wireOf sep rs)).2.2 =
      none := by
  have hw : (writeRecordsTerm (mkClean [] sep true true false) rs).b.out =
      wireOf sep rs := by
    rw [writeRecordsTerm_mk sep rs [] hne]
    rw [mkClean_out]
    simp
  have hlen := numFields_le_wire sep rs hne
  obtain ⟨s2, hstd2, heor2, hrun⟩ := tokenize_records sep hsQ hsLF hsCR rs
    (NewReader sep true false) []
    ((wireOf sep rs).length + 2 - numFields rs)
    ⟨rfl, rfl, rfl, rfl, rfl⟩ rfl hne hok
  have hempty : tokenize ((wireOf sep rs).length + 2 - numFields rs) s2 [] =
      ([], s2, none) := by
    obtain ⟨k, hk⟩ : ∃ k,
        (wireOf sep rs).length + 2 - numFields rs = k + 1 :=
      ⟨(wireOf sep rs).length + 1 - numFields rs, by omega⟩
    rw [hk]
    exact tokenize_empty k s2 heor2
  rw [hempty] at hrun
  rw [List.append_nil] at hrun
  have hmain : tokenizeAll (NewReader sep true false) (wireOf sep rs) =
      (toksOf rs, s2, none) := by
    rw [show tokenizeAll (NewReader sep true false) (wireOf sep rs) =
      tokenize ((wireOf sep rs).length + 2) (NewReader sep true false)
        (wireOf sep rs) from rfl]
    rw [show (wireOf sep rs).length + 2 =
      ((wireOf sep rs).length + 2 - numFields rs) + numFields rs from by
      omega]
    rw [hrun]
    simp
  exact ⟨hw, by rw [hmain], by rw [hmain]⟩

/-- C1 witness: the single record whose field a"b contains a quote round
trips: it is written quoted with the quote doubled and read back
verbatim with end of record set. -/
theorem C1_round_trip_witness :
    (44 : Byte) ≠ QUOTE ∧
    (writeRecordsTerm (mkClean [] 44 true true false) [[[97, 34, 98]]]).b.out
      = wireOf 44 [[[97, 34, 98]]] ∧
    (tokenizeAll (NewReader 44 true false) (wireOf 44 [[[97, 34, 98]]])).1 =
      toksOf [[[97, 34, 98]]] ∧
    (tokenizeAll (NewReader 44 true false) (wireOf 44 [[[97, 34, 98]]])).2.2
      = none :=
  ⟨by decide,
   (C1_round_trip 44 [[[97, 34, 98]]] (by decide) (by decide) (by decide)
      (by decide) (by decide)).1,
   (C1_round_trip 44 [[[97, 34, 98]]] (by decide) (by decide) (by decide)
      (by decide) (by decide)).2.1,
   (C1_round_trip 44 [[[97, 34, 98]]] (by decide) (by decide) (by decide)
      (by decide) (by decide)).2.2⟩

end Yacr
